import Mathlib

set_option maxRecDepth 100000

/-!
# Verification of the minmax-code agentic conversation engine

A shallow embedding, in Lean 4, of the core of the `minmax-code` terminal
assistant: the incremental model-output parser (`src/core/parser.ts`), the
argument coercion and JSON round trip through the tool-call pipeline, the
streaming client event loop (`src/core/api.ts`), the tool registry and
executor (`src/core/tools.ts`), the per-round conversation loop of the
`useChat` hook, the `edit_file` tool and the `list_directory` tool.

Strings are modelled as `List Char` (wrapped into `String` at the
interfaces); JavaScript library functions used by the code (`JSON.parse`,
`JSON.stringify`, `String.prototype.split`, regular-expression matching with
the specific patterns appearing in the source) are modelled by explicit
recursive functions whose behaviour coincides with the JavaScript semantics
on the inputs that matter.  Known modelling deviations (IEEE doubles
modelled as digit-exact decimals, no exponent notation in JSON numbers,
ASCII whitespace) are noted at the definitions.
-/

namespace MC

/-! ## Basic character/list utilities -/

/-- ASCII whitespace, standing in for JavaScript's `\s` and the characters
removed by `trim` (the source only meets spaces, tabs, CR and LF here). -/
def isWsChar (c : Char) : Bool :=
  c = ' ' ∨ c = '\t' ∨ c = '\n' ∨ c = '\r'

/-- `String.prototype.trim`: drop whitespace from both ends. -/
def trimChars (s : List Char) : List Char :=
  ((s.dropWhile isWsChar).reverse.dropWhile isWsChar).reverse

def isDigitChar (c : Char) : Bool :=
  48 ≤ c.toNat ∧ c.toNat ≤ 57

def isAsciiLetter (c : Char) : Bool :=
  (65 ≤ c.toNat ∧ c.toNat ≤ 90) ∨ (97 ≤ c.toNat ∧ c.toNat ≤ 122)

/-- ASCII lower-casing, modelling `String.prototype.toLowerCase` on the
ASCII tags the parser compares. -/
def lowerChar (c : Char) : Char :=
  if 65 ≤ c.toNat ∧ c.toNat ≤ 90 then Char.ofNat (c.toNat + 32) else c

/-- Index of the first occurrence of `pat` in `s`
(`String.prototype.indexOf`).  The empty pattern occurs at index 0, as in
JavaScript. -/
def firstOcc (pat : List Char) : List Char → Option Nat
  | [] => if pat = [] then some 0 else none
  | c :: t =>
    if pat.isPrefixOf (c :: t) then some 0
    else (firstOcc pat t).map (· + 1)

/-- `String.prototype.includes`. -/
def occursIn (pat s : List Char) : Bool :=
  (firstOcc pat s).isSome

/-- `String.prototype.startsWith`. -/
def strStarts (pre s : String) : Bool :=
  pre.data.isPrefixOf s.data

/-- Split at the first occurrence of `pat`: the text before it and the text
after it (the pattern itself removed). -/
def splitFirst (pat s : List Char) : Option (List Char × List Char) :=
  (firstOcc pat s).map fun i => (s.take i, s.drop (i + pat.length))

/-- The left brace / right brace characters (kept out of string literals). -/
def lbrace : Char := Char.ofNat 123

def rbrace : Char := Char.ofNat 125

/-! ## The JSON data model

Models the JavaScript values that flow between `JSON.parse` and
`JSON.stringify` in the engine.  A number is kept digit-exact as
`m / 10 ^ e` (JavaScript uses IEEE doubles; every claim under verification
is insensitive to the rounding, and keeping the digits makes printing and
parsing exact inverses).  The nested lists of array elements and object
fields are their own inductive types so that all functions over JSON are
structurally recursive and evaluate inside the kernel. -/

mutual

inductive Json where
  | null : Json
  | bool (b : Bool) : Json
  | num (m : Int) (e : Nat) : Json
  | str (s : String) : Json
  | arr (elems : JList) : Json
  | obj (fields : JFields) : Json

inductive JList where
  | nil : JList
  | cons (head : Json) (tail : JList) : JList

inductive JFields where
  | nil : JFields
  | cons (key : String) (val : Json) (tail : JFields) : JFields

end

/-! ## Printing JSON (`JSON.stringify`, no spacing argument) -/

def hexDigitChar (n : Nat) : Char :=
  if n < 10 then Char.ofNat (48 + n) else Char.ofNat (87 + n)

/-- Escape one character of a JSON string, as `JSON.stringify` does: quote,
backslash and control characters are escaped, everything else is literal. -/
def escChar (c : Char) : List Char :=
  if c = '"' then ['\\', '"']
  else if c = '\\' then ['\\', '\\']
  else if c = '\n' then ['\\', 'n']
  else if c = '\r' then ['\\', 'r']
  else if c = '\t' then ['\\', 't']
  else if c.toNat = 8 then ['\\', 'b']
  else if c.toNat = 12 then ['\\', 'f']
  else if c.toNat < 32 then
    ['\\', 'u', '0', '0', hexDigitChar (c.toNat / 16), hexDigitChar (c.toNat % 16)]
  else [c]

def escList : List Char → List Char
  | [] => []
  | c :: t => escChar c ++ escList t

def printStrChars (cs : List Char) : List Char :=
  '"' :: escList cs ++ ['"']

def digitChar (d : Nat) : Char := Char.ofNat (48 + d)

/-- Little-endian base-10 digits of `n` (`[]` for `0`); `fuel` bounds the
recursion and any `fuel ≥ n` is enough. -/
def natDigitsLE : Nat → Nat → List Nat
  | 0, _ => []
  | _ + 1, 0 => []
  | fuel + 1, n + 1 => ((n + 1) % 10) :: natDigitsLE fuel ((n + 1) / 10)

/-- Big-endian base-10 digits of `n`, left-padded with zeros to length at
least `pad`. -/
def natDigitsPad (n pad : Nat) : List Nat :=
  let ds := (natDigitsLE n n).reverse
  List.replicate (pad - ds.length) 0 ++ ds

/-- Print the decimal number `m / 10 ^ e`: the digits of `|m|` padded to at
least `e + 1` digits, with a decimal point before the last `e` of them.
Never uses exponent notation. -/
def printNum (m : Int) (e : Nat) : List Char :=
  let ds := natDigitsPad m.natAbs (e + 1)
  let cs := ds.map digitChar
  (if m < 0 then ['-'] else []) ++
    (if e = 0 then cs else cs.take (ds.length - e) ++ '.' :: cs.drop (ds.length - e))

/-- The printed digit block of `printNum`, without the sign. -/
def printNumBody (ds : List Nat) (e : Nat) : List Char :=
  let cs := ds.map digitChar
  if e = 0 then cs else cs.take (ds.length - e) ++ '.' :: cs.drop (ds.length - e)

mutual

def printJson : Json → List Char
  | .null => "null".data
  | .bool true => "true".data
  | .bool false => "false".data
  | .num m e => printNum m e
  | .str s => printStrChars s.data
  | .arr .nil => ['[', ']']
  | .arr (.cons x t) => '[' :: printJson x ++ printJListTail t ++ [']']
  | .obj .nil => [lbrace, rbrace]
  | .obj (.cons k v t) =>
    lbrace :: printStrChars k.data ++ ':' :: printJson v ++ printJFieldsTail t ++ [rbrace]

def printJListTail : JList → List Char
  | .nil => []
  | .cons x t => ',' :: printJson x ++ printJListTail t

def printJFieldsTail : JFields → List Char
  | .nil => []
  | .cons k v t => ',' :: printStrChars k.data ++ ':' :: printJson v ++ printJFieldsTail t

end

/-- `JSON.stringify` on the model, as a `String`. -/
def stringifyJson (j : Json) : String :=
  String.mk (printJson j)

/-! ## Structural equality of JSON values -/

mutual

def jsonBeq : Json → Json → Bool
  | .null, .null => true
  | .bool a, .bool b => a = b
  | .num m e, .num m' e' => m = m' ∧ e = e'
  | .str a, .str b => a = b
  | .arr a, .arr b => jlistBeq a b
  | .obj a, .obj b => jfieldsBeq a b
  | _, _ => false

def jlistBeq : JList → JList → Bool
  | .nil, .nil => true
  | .cons x t, .cons y u => jsonBeq x y && jlistBeq t u
  | _, _ => false

def jfieldsBeq : JFields → JFields → Bool
  | .nil, .nil => true
  | .cons k v t, .cons k' v' u => decide (k = k') && jsonBeq v v' && jfieldsBeq t u
  | _, _ => false

end

/-! ## Parsing JSON (`JSON.parse`)

A recursive-descent parser over `List Char`.  Deviations from full
ECMA-404, noted once here: numbers carry no exponent notation, `\u` escapes
decode to the scalar value (no surrogate pairing), raw control characters
inside strings are accepted, leading zeros in numbers are accepted.  None
of the claims depends on inputs in the gap, and the printer never produces
such texts. -/

def skipWs (s : List Char) : List Char := s.dropWhile isWsChar

def hexVal (c : Char) : Option Nat :=
  if 48 ≤ c.toNat ∧ c.toNat ≤ 57 then some (c.toNat - 48)
  else if 97 ≤ c.toNat ∧ c.toNat ≤ 102 then some (c.toNat - 87)
  else if 65 ≤ c.toNat ∧ c.toNat ≤ 70 then some (c.toNat - 55)
  else none

def unescChar (c : Char) : Option Char :=
  if c = '"' then some '"'
  else if c = '\\' then some '\\'
  else if c = '/' then some '/'
  else if c = 'b' then some (Char.ofNat 8)
  else if c = 'f' then some (Char.ofNat 12)
  else if c = 'n' then some '\n'
  else if c = 'r' then some '\r'
  else if c = 't' then some '\t'
  else none

/-- Parse the body of a JSON string after the opening quote, up to and over
the closing quote. -/
def parseStrBody : List Char → Option (List Char × List Char)
  | [] => none
  | c :: r =>
    if c = '"' then some ([], r)
    else if c = '\\' then
      match r with
      | [] => none
      | e :: r' =>
        if e = 'u' then
          match r' with
          | a :: b :: c2 :: d :: r'' =>
            match hexVal a, hexVal b, hexVal c2, hexVal d with
            | some va, some vb, some vc, some vd =>
              (parseStrBody r'').map fun p =>
                (Char.ofNat (((va * 16 + vb) * 16 + vc) * 16 + vd) :: p.1, p.2)
            | _, _, _, _ => none
          | _ => none
        else
          match unescChar e with
          | some u => (parseStrBody r').map fun p => (u :: p.1, p.2)
          | none => none
    else (parseStrBody r).map fun p => (c :: p.1, p.2)

def digitVal (c : Char) : Nat := c.toNat - 48

def fromDigits (ds : List Nat) : Nat := ds.foldl (fun a d => 10 * a + d) 0

/-- The digits of a JSON number after the optional minus sign: integer
digits, then an optional fraction. -/
def parseNumCore (neg : Bool) (s1 : List Char) : Option (Json × List Char) :=
  let ds1 := s1.takeWhile isDigitChar
  let s2 := s1.drop ds1.length
  if ds1 = [] then none
  else if s2.head? = some '.' then
    let s3 := s2.tail
    let ds2 := s3.takeWhile isDigitChar
    if ds2 = [] then none
    else
      let mAbs : Int := (fromDigits ((ds1 ++ ds2).map digitVal) : Nat)
      some (.num (if neg then -mAbs else mAbs) ds2.length, s3.drop ds2.length)
  else
    let mAbs : Int := (fromDigits (ds1.map digitVal) : Nat)
    some (.num (if neg then -mAbs else mAbs) 0, s2)

/-- Parse a JSON number (optional minus, digits, optional fraction). -/
def parseNum (s : List Char) : Option (Json × List Char) :=
  if s.head? = some '-' then parseNumCore true s.tail else parseNumCore false s

/-- The character (if any) after a printed JSON value never extends a
number: not a digit and not a decimal point.  Holds at every position where
the parser meets a value (end of input, before `,`, `]` or the closing
brace). -/
def NumDelim (rest : List Char) : Prop :=
  ∀ h, rest.head? = some h → isDigitChar h = false ∧ h ≠ '.'

mutual

/-- Parse one JSON value from the front of the input (whitespace allowed
before it); `fuel` bounds the recursion, and any `fuel` at least the node
count of the value is enough. -/
def parseValue : Nat → List Char → Option (Json × List Char)
  | 0, _ => none
  | fuel + 1, s =>
    match skipWs s with
    | [] => none
    | c :: r =>
      if (c :: r).take 4 = ['n', 'u', 'l', 'l'] then some (.null, (c :: r).drop 4)
      else if (c :: r).take 4 = ['t', 'r', 'u', 'e'] then some (.bool true, (c :: r).drop 4)
      else if (c :: r).take 5 = ['f', 'a', 'l', 's', 'e'] then
        some (.bool false, (c :: r).drop 5)
      else if c = '"' then
        (parseStrBody r).map fun p => (.str (String.mk p.1), p.2)
      else if c = '[' then
        match skipWs r with
        | [] => none
        | c' :: r' =>
          if c' = ']' then some (.arr .nil, r')
          else
            match parseValue fuel (c' :: r') with
            | none => none
            | some (x, r'') =>
              match parseArrTail fuel r'' with
              | none => none
              | some (xs, r3) => some (.arr (.cons x xs), r3)
      else if c = lbrace then
        match skipWs r with
        | [] => none
        | c' :: r' =>
          if c' = rbrace then some (.obj .nil, r')
          else
            match parseField fuel (c' :: r') with
            | none => none
            | some (f, r'') =>
              match parseObjTail fuel r'' with
              | none => none
              | some (fs, r3) => some (.obj (.cons f.1 f.2 fs), r3)
      else parseNum (c :: r)

/-- After an array element: `,` and another element, or `]` to close. -/
def parseArrTail : Nat → List Char → Option (JList × List Char)
  | 0, _ => none
  | fuel + 1, s =>
    match skipWs s with
    | [] => none
    | c :: r =>
      if c = ']' then some (.nil, r)
      else if c = ',' then
        match parseValue fuel r with
        | none => none
        | some (x, r') =>
          match parseArrTail fuel r' with
          | none => none
          | some (xs, r'') => some (.cons x xs, r'')
      else none

/-- One `"key": value` field of an object. -/
def parseField : Nat → List Char → Option ((String × Json) × List Char)
  | 0, _ => none
  | fuel + 1, s =>
    match skipWs s with
    | [] => none
    | c :: r =>
      if c = '"' then
        match parseStrBody r with
        | none => none
        | some (k, r') =>
          match skipWs r' with
          | [] => none
          | c' :: r'' =>
            if c' = ':' then
              match parseValue fuel r'' with
              | none => none
              | some (v, r3) => some ((String.mk k, v), r3)
            else none
      else none

/-- After an object field: `,` and another field, or the closing brace. -/
def parseObjTail : Nat → List Char → Option (JFields × List Char)
  | 0, _ => none
  | fuel + 1, s =>
    match skipWs s with
    | [] => none
    | c :: r =>
      if c = rbrace then some (.nil, r)
      else if c = ',' then
        match parseField fuel r with
        | none => none
        | some (f, r') =>
          match parseObjTail fuel r' with
          | none => none
          | some (fs, r'') => some (.cons f.1 f.2 fs, r'')
      else none

end

/-- `JSON.parse`: parse a complete JSON text (trailing whitespace allowed);
`none` models a thrown `SyntaxError`. -/
def jsonParse (s : String) : Option Json :=
  match parseValue (s.length + 1) s.data with
  | some (j, rest) => if skipWs rest = [] then some j else none
  | none => none

/-! ## Node counts (fuel bounds for the parser; proof-side measure only) -/

mutual

def jcount : Json → Nat
  | .null => 1
  | .bool _ => 1
  | .num _ _ => 1
  | .str _ => 1
  | .arr es => 1 + jcountL es
  | .obj fs => 1 + jcountF fs

def jcountL : JList → Nat
  | .nil => 0
  | .cons x t => 1 + jcount x + jcountL t

def jcountF : JFields → Nat
  | .nil => 0
  | .cons _ v t => 1 + jcount v + jcountF t

end

/-! ## Argument coercion (`coerceArg` in `src/core/parser.ts`)

Converts a parsed XML tool-call argument value to the matching JavaScript
value, trying in order: boolean literals, all-digits integer, digits-dot-
digits float, JSON arrays/objects, else the unchanged string. -/

/-- `/^\d+$/` -/
def isAllDigits (s : List Char) : Bool :=
  s ≠ [] && s.all isDigitChar

/-- `/^\d+\.\d+$/` -/
def isFloatShape (s : List Char) : Bool :=
  let d1 := s.takeWhile isDigitChar
  let r := s.drop d1.length
  d1 ≠ [] && r.head? = some '.' && r.tail ≠ [] && r.tail.all isDigitChar

/-- The value of `parseFloat` on a `/^\d+\.\d+$/` string, digit-exact. -/
def floatShapeVal (s : List Char) : Json :=
  let d1 := s.takeWhile isDigitChar
  let d2 := (s.drop d1.length).tail
  .num (fromDigits ((d1 ++ d2).map digitVal) : Nat) d2.length

def coerceArg (v : String) : Json :=
  if v = "true" then .bool true
  else if v = "false" then .bool false
  else if isAllDigits v.data then .num (fromDigits (v.data.map digitVal) : Nat) 0
  else if isFloatShape v.data then floatShapeVal v.data
  else if v.data.head? = some '[' ∨ v.data.head? = some lbrace then
    match jsonParse v with
    | some j => j
    | none => .str v
  else .str v

/-- JavaScript object property assignment on an insertion-ordered record:
an existing key keeps its position and takes the new value, a new key is
appended. -/
def objAssign (m : List (String × String)) (k v : String) : List (String × String) :=
  if m.any (·.1 = k) then m.map fun p => if p.1 = k then (k, v) else p
  else m ++ [(k, v)]

/-- `Object.fromEntries(Object.entries(args).map(([k, v]) => [k, coerceArg(v)]))`
as a JSON object: coerce every argument value in order. -/
def coerceFields : List (String × String) → JFields
  | [] => .nil
  | (k, v) :: t => .cons k (coerceArg v) (coerceFields t)

/-! ## The incremental parser (`parseModelOutput` in `src/core/parser.ts`) -/

def thinkOpenTag : List Char := "<think>".data

def thinkCloseTag : List Char := "</think>".data

def toolOpenTag : List Char := "<minimax:tool_call>".data

def toolCloseTag : List Char := "</minimax:tool_call>".data

/-- All matches of the non-greedy global pattern `OPEN([\s\S]*?)CLOSE`:
returns the list of matched inner texts and the text with the matched
blocks removed (as `replace(regex, "")` produces).  Each step takes the
first `OPEN` and the first `CLOSE` after it; if no `CLOSE` follows the
first remaining `OPEN`, no further match exists.  `fuel` bounds the
recursion; any `fuel ≥ s.length` is enough when both tags are nonempty. -/
def extractAux (openT closeT : List Char) : Nat → List Char → List (List Char) × List Char
  | 0, s => ([], s)
  | fuel + 1, s =>
    match splitFirst openT s with
    | none => ([], s)
    | some (pre, rest) =>
      match splitFirst closeT rest with
      | none => ([], s)
      | some (inner, post) =>
        let (blocks, rem) := extractAux openT closeT fuel post
        (inner :: blocks, pre ++ rem)

def extractBlocks (openT closeT s : List Char) : List (List Char) × List Char :=
  extractAux openT closeT s.length s

/-- The single quote and backtick characters (kept out of literals). -/
def squote : Char := Char.ofNat 39

def btick : Char := Char.ofNat 96

/-- Try to match `<WORD\s+name=["']?NAME["']?\s*>` at the start of `s`
(the head of the `invoke`/`parameter` regexes); returns the captured name
and the rest after `>`. -/
def tryTagHead (word : List Char) (s : List Char) : Option (String × List Char) :=
  if ('<' :: word).isPrefixOf s then
    let r0 := s.drop (word.length + 1)
    let ws := r0.takeWhile isWsChar
    if ws = [] then none
    else
      let r1 := r0.drop ws.length
      if "name=".data.isPrefixOf r1 then
        let r2 := r1.drop 5
        let r3 := if r2.head? = some '"' ∨ r2.head? = some squote then r2.tail else r2
        let nm := r3.takeWhile fun c => !(c = '"' ∨ c = squote ∨ c = '>' ∨ isWsChar c)
        if nm = [] then none
        else
          let r4 := r3.drop nm.length
          let r5 := if r4.head? = some '"' ∨ r4.head? = some squote then r4.tail else r4
          let r6 := r5.dropWhile isWsChar
          match r6 with
          | c :: r7 => if c = '>' then some (String.mk nm, r7) else none
          | [] => none
      else none
  else none

/-- First match of `<WORD\s+name=["']?NAME["']?\s*>([\s\S]*?)CLOSE` in `s`:
scan left to right for a position where the head matches; the lazy body is
everything up to the first `CLOSE` after it.  If no `CLOSE` follows, no
later start can match either. -/
def findTagMat (word closeT : List Char) : List Char → Option (String × List Char × List Char)
  | [] => none
  | c :: t =>
    match tryTagHead word (c :: t) with
    | some (nm, rest) =>
      match splitFirst closeT rest with
      | some (body, after) => some (nm, body, after)
      | none => none
    | none => findTagMat word closeT t

/-- All matches of the global tag regex, in order (`regex.exec` loop). -/
def collectTags (word closeT : List Char) : Nat → List Char → List (String × List Char)
  | 0, _ => []
  | fuel + 1, s =>
    match findTagMat word closeT s with
    | none => []
    | some (nm, body, after) => (nm, body) :: collectTags word closeT fuel after

/-- One tool call recovered from embedded XML: tool name and raw string
arguments (insertion-ordered, later duplicate parameters overwrite). -/
structure ParsedToolCall where
  name : String
  args : List (String × String)
deriving DecidableEq

/-- `parseToolCallBlock`: every `<invoke name="N">…</invoke>` in the block
yields one call; every `<parameter name="K">V</parameter>` inside it binds
`K` to the trimmed `V`. -/
def parseToolCallBlock (block : List Char) : List ParsedToolCall :=
  (collectTags "invoke".data "</invoke>".data block.length block).map fun m =>
    { name := m.1
      args := (collectTags "parameter".data "</parameter>".data m.2.length m.2).foldl
        (fun acc p => objAssign acc p.1 (String.mk (trimChars p.2))) [] }

/-- Least index from which the buffer looks like the start of an unclosed
tag (`/<\/?[a-z][^>]*$/i`): a `<`, an optional `/`, an ASCII letter, and no
`>` up to the end of the buffer. -/
def findTrailingTag : List Char → Option Nat
  | [] => none
  | c :: t =>
    let headOk :=
      c = '<' &&
        (match (if t.head? = some '/' then t.tail else t).head? with
         | some c2 => isAsciiLetter c2
         | none => false) &&
        (c :: t).all (· ≠ '>')
    if headOk then some 0 else (findTrailingTag t).map (· + 1)

structure ParsedOutput where
  reasoning : String
  content : String
  toolCalls : List ParsedToolCall
  pending : Bool
deriving DecidableEq

/-- `parseModelOutput` from `src/core/parser.ts`, step for step: extract
completed `<think>` blocks into reasoning, then partial reasoning after an
unclosed `<think>`, then completed `<minimax:tool_call>` blocks into tool
calls, truncate at an unclosed `<minimax:tool_call>`, strip a trailing
partial known tag, and trim the remaining content. -/
def parseModelOutput (raw : String) : ParsedOutput :=
  let w0 := raw.data
  let hasUnclosedThink := occursIn thinkOpenTag w0 && !occursIn thinkCloseTag w0
  let hasUnclosedToolCall := occursIn toolOpenTag w0 && !occursIn toolCloseTag w0
  let pending0 := hasUnclosedThink || hasUnclosedToolCall
  let ext1 := extractBlocks thinkOpenTag thinkCloseTag w0
  let reasoning1 := (ext1.1.map trimChars).flatten
  let step2 :=
    if hasUnclosedThink then
      match firstOcc thinkOpenTag ext1.2 with
      | some i =>
        let partialR := trimChars (ext1.2.drop (i + 7))
        (reasoning1 ++ (if reasoning1 ≠ [] then '\n' :: partialR else partialR),
          ext1.2.take i)
      | none => (reasoning1, ext1.2)
    else (reasoning1, ext1.2)
  let ext2 := extractBlocks toolOpenTag toolCloseTag step2.2
  let toolCalls := (ext2.1.map parseToolCallBlock).flatten
  let w4 :=
    if hasUnclosedToolCall then
      match firstOcc toolOpenTag ext2.2 with
      | some i => ext2.2.take i
      | none => ext2.2
    else ext2.2
  let step5 :=
    match findTrailingTag w4 with
    | none => (w4, pending0)
    | some i =>
      let partialT := (w4.drop i).map lowerChar
      if partialT.isPrefixOf thinkOpenTag ∨ partialT.isPrefixOf thinkCloseTag ∨
          partialT.isPrefixOf toolOpenTag ∨ partialT.isPrefixOf toolCloseTag then
        (w4.take i, true)
      else (w4, pending0)
  { reasoning := String.mk step2.1
    content := String.mk (trimChars step5.1)
    toolCalls := toolCalls
    pending := step5.2 }

/-! ## The streaming client (`streamChat` in `src/core/api.ts`)

The SSE stream is modelled as the list of decoded chunk objects; the
`AbortSignal` as the number of chunks delivered before the abort is
observed.  Callbacks become an ordered event list. -/

structure Usage where
  promptTokens : Nat
  completionTokens : Nat
  totalTokens : Nat
deriving DecidableEq

/-- An accumulated tool call (`{id, type: "function", function: {name,
arguments}}`; the constant `type` tag is dropped). -/
structure AccumulatedToolCall where
  id : String
  name : String
  arguments : String
deriving DecidableEq

/-- One element of `delta.tool_calls`. -/
structure TCDelta where
  index : Nat
  id : Option String
  name : Option String
  arguments : Option String
deriving DecidableEq

/-- `choices[0]` of a chunk, with its `delta` fields inlined
(`reasoningDetails` lists the `text` values of the entries that have one). -/
structure ChunkChoice where
  finishReason : Option String
  reasoningDetails : List String
  reasoningContent : Option String
  content : Option String
  toolCalls : List TCDelta
deriving DecidableEq

structure StreamChunk where
  usage : Option Usage
  error : Option String
  choices : List ChunkChoice
deriving DecidableEq

inductive StreamEvent where
  | reasoningChunk (text : String)
  | contentChunk (text : String)
  | toolCallDelta (snapshot : List AccumulatedToolCall)
  | errorEvent (message : String)
  | doneEvent (usage : Usage)
deriving DecidableEq

structure StreamState where
  content : String
  reasoningDetails : List String
  toolCallsMap : List (Nat × AccumulatedToolCall)
  usage : Usage
  finishReason : String
  chunkCount : Nat
deriving DecidableEq

def applyTCDelta (acc : AccumulatedToolCall) (tc : TCDelta) : AccumulatedToolCall :=
  let a1 := match tc.id with
    | some i => if i ≠ "" then { acc with id := i } else acc
    | none => acc
  let a2 := match tc.name with
    | some n => if n ≠ "" then { a1 with name := n } else a1
    | none => a1
  match tc.arguments with
  | some s => if s ≠ "" then { a2 with arguments := a2.arguments ++ s } else a2
  | none => a2

/-- Upsert one tool-call delta into the insertion-ordered map keyed by the
stream-assigned index. -/
def upsertTCDelta (m : List (Nat × AccumulatedToolCall)) (tc : TCDelta) :
    List (Nat × AccumulatedToolCall) :=
  if m.any (·.1 = tc.index) then
    m.map fun p => if p.1 = tc.index then (p.1, applyTCDelta p.2 tc) else p
  else m ++ [(tc.index, applyTCDelta ⟨"", "", ""⟩ tc)]

/-- Process one chunk of the `for await` loop body: the updated state, the
events emitted, and whether the loop `break`s (an API-level error). -/
def processChunk (st : StreamState) (ch : StreamChunk) :
    StreamState × List StreamEvent × Bool :=
  let st := { st with chunkCount := st.chunkCount + 1 }
  let st := match ch.usage with
    | some u => { st with usage := u }
    | none => st
  match ch.error with
  | some msg => (st, [.errorEvent ("API error: " ++ msg)], true)
  | none =>
    match ch.choices.head? with
    | none => (st, [], false)
    | some choice =>
      let st := match choice.finishReason with
        | some fr => if fr ≠ "" then { st with finishReason := fr } else st
        | none => st
      let rdTexts := choice.reasoningDetails ++
        (match choice.reasoningContent with
         | some rc => if rc ≠ "" then [rc] else []
         | none => [])
      let st := { st with reasoningDetails := st.reasoningDetails ++ rdTexts }
      let evs1 := rdTexts.map StreamEvent.reasoningChunk
      let contentPiece := match choice.content with
        | some c => if c ≠ "" then some c else none
        | none => none
      let st := match contentPiece with
        | some c => { st with content := st.content ++ c }
        | none => st
      let evs2 := match contentPiece with
        | some c => [StreamEvent.contentChunk c]
        | none => []
      if choice.toolCalls ≠ [] then
        let m := choice.toolCalls.foldl upsertTCDelta st.toolCallsMap
        let st := { st with toolCallsMap := m }
        (st, evs1 ++ evs2 ++ [.toolCallDelta (m.map (·.2))], false)
      else (st, evs1 ++ evs2, false)

def runChunks (st : StreamState) : List StreamChunk → StreamState × List StreamEvent
  | [] => (st, [])
  | ch :: rest =>
    let step := processChunk st ch
    if step.2.2 then (step.1, step.2.1)
    else
      let next := runChunks step.1 rest
      (next.1, step.2.1 ++ next.2)

structure StreamResult where
  content : String
  reasoningDetails : List String
  toolCalls : List AccumulatedToolCall
  usage : Usage
  finishReason : String
deriving DecidableEq

def initialStreamState : StreamState :=
  ⟨"", [], [], ⟨0, 0, 0⟩, "", 0⟩

/-- `streamChat`: consume the chunks delivered before the abort is observed
(`abortAfter = some n` caps the loop at `n` chunks), detect the completely
empty response, emit the terminal callback, and return the accumulated
result. -/
def streamChat (chunks : List StreamChunk) (abortAfter : Option Nat) :
    StreamResult × List StreamEvent :=
  let eff := match abortAfter with
    | some n => chunks.take n
    | none => chunks
  let run := runChunks initialStreamState eff
  let st := run.1
  let emptyErr : List StreamEvent :=
    if st.chunkCount = 0 ∧ st.content = "" ∧ st.toolCallsMap = [] then
      [.errorEvent "No response received from API (0 chunks)"]
    else []
  (⟨st.content, st.reasoningDetails, st.toolCallsMap.map (·.2), st.usage, st.finishReason⟩,
    run.2 ++ emptyErr ++ [.doneEvent st.usage])

/-! ## Tool registry and executor (`src/core/tools.ts`) -/

/-- A tool schema entry; the source objects also carry a description and a
JSON-schema parameter object, which no claim inspects, so only the name is
kept. -/
structure ToolDef where
  name : String
deriving DecidableEq

/-- The eight built-in tools in registration order. -/
def builtinToolNames : List String :=
  ["bash", "read_file", "write_file", "edit_file", "glob", "grep",
    "list_directory", "web_search"]

def builtinDefs : List ToolDef := builtinToolNames.map ToolDef.mk

def READ_ONLY_TOOLS : List String :=
  ["read_file", "glob", "grep", "list_directory", "web_search"]

/-- `getToolDefinitions`: all built-ins followed by the external-bridge
(`mcp__`) definitions. -/
def getToolDefinitions (mcpDefs : List ToolDef) : List ToolDef :=
  builtinDefs ++ mcpDefs

/-- `getReadOnlyToolDefinitions`: the built-ins whose name is in
`READ_ONLY_TOOLS`; external-bridge definitions are not consulted. -/
def getReadOnlyToolDefinitions : List ToolDef :=
  builtinDefs.filter fun t => READ_ONLY_TOOLS.contains t.name

/-- The filesystem: a finite map from paths to file contents, insertion
ordered. -/
abbrev Fs := List (String × String)

def fsRead (fs : Fs) (p : String) : Option String :=
  (fs.find? (·.1 = p)).map (·.2)

def fsWrite (fs : Fs) (p c : String) : Fs :=
  if fs.any (·.1 = p) then fs.map fun q => if q.1 = p then (p, c) else q
  else fs ++ [(p, c)]

/-- Non-overlapping left-to-right occurrence count (what
`content.split(sep).length - 1` computes for a nonempty separator);
`fuel ≥ s.length` is always enough. -/
def countOccAux (pat : List Char) : Nat → List Char → Nat
  | 0, _ => 0
  | fuel + 1, s =>
    match splitFirst pat s with
    | none => 0
    | some (_, after) => 1 + countOccAux pat fuel after

/-- `content.split(old_str).length - 1` from `edit_file`.  For the empty
separator JavaScript splits into single characters, giving `length - 1`
(which is `-1` on empty content), hence the `Int` result. -/
def editOccurrences (old content : String) : Int :=
  if old = "" then (content.length : Int) - 1
  else (countOccAux old.data content.data.length content.data : Int)

/-- `$`-substitution of `String.prototype.replace` for a string pattern:
`$$` is a dollar, `$&` the matched text, a backtick-dollar the text before
the match, a quote-dollar the text after it; anything else is literal. -/
def applyDollar (matched before after : List Char) : List Char → List Char
  | [] => []
  | c :: t =>
    if c = '$' then
      match t with
      | [] => [c]
      | d :: t' =>
        if d = '$' then '$' :: applyDollar matched before after t'
        else if d = '&' then matched ++ applyDollar matched before after t'
        else if d = btick then before ++ applyDollar matched before after t'
        else if d = squote then after ++ applyDollar matched before after t'
        else '$' :: d :: applyDollar matched before after t'
    else c :: applyDollar matched before after t

/-- `String.prototype.replace` with a string pattern: replace the first
occurrence only. -/
def jsReplaceFirst (s pat rep : List Char) : List Char :=
  match splitFirst pat s with
  | none => s
  | some (before, after) => before ++ applyDollar pat before after rep ++ after

namespace EditFile

/-- `edit_file`'s `execute`: require the path to exist and `old_str` to
occur exactly once by split count; otherwise report and leave the
filesystem unchanged. -/
def execute (fs : Fs) (path old new : String) : Fs × String :=
  match fsRead fs path with
  | none => (fs, "Error: File not found: " ++ path)
  | some content =>
    let occurrences := editOccurrences old content
    if occurrences = 0 then (fs, "Error: old_str not found in " ++ path)
    else if occurrences > 1 then
      (fs, "Error: old_str found " ++ toString occurrences ++ " times in " ++ path ++
        ". It must be unique. Add more context to make it unique.")
    else
      (fsWrite fs path (String.mk (jsReplaceFirst content.data old.data new.data)),
        "File edited successfully: " ++ path)

end EditFile

namespace WriteFile

/-- `write_file`'s `execute`: create or overwrite the file (parent-directory
creation has no observable effect in the path-to-content model). -/
def execute (fs : Fs) (path content : String) : Fs × String :=
  (fsWrite fs path content, "File written successfully: " ++ path)

end WriteFile

/-- The value of a string-valued field of a JSON object (last binding
wins, as in a JavaScript object built by `JSON.parse`). -/
def strField : JFields → String → Option String
  | .nil, _ => none
  | .cons k v t, key =>
    match strField t key with
    | some r => some r
    | none =>
      if k = key then
        match v with
        | .str s => some s
        | _ => none
      else none

inductive Mode where
  | PLAN : Mode
  | BUILDER : Mode
deriving DecidableEq

structure ToolExecutionResult where
  result : String
deriving DecidableEq
-- The source result also carries optional preview `meta`, which no claim
-- inspects.

/-- `executeTool` from `src/core/tools.ts`.  `io` supplies the result text
of the built-ins whose behaviour no claim observes (`bash`, `read_file`,
`glob`, `grep`, `list_directory`, `web_search`) and of the external-bridge
`callMCPTool`; those calls leave the modelled filesystem unchanged (none of
the claims exercises their effects).  `write_file` and `edit_file` run
their full models.  `mode` is the optional third parameter. -/
def executeTool (io : String → Json → String) (name : String) (args : Json)
    (mode : Option Mode) (fs : Fs) : Fs × ToolExecutionResult :=
  if mode = some .PLAN ∧ ¬ READ_ONLY_TOOLS.contains name ∧ ¬ strStarts "mcp__" name then
    (fs, ⟨"Error: Tool \"" ++ name ++
      "\" is not available in PLAN mode. Switch to BUILDER mode (Tab) to use it."⟩)
  else if name = "write_file" then
    match args with
    | .obj flds =>
      match strField flds "path", strField flds "content" with
      | some p, some c =>
        let w := WriteFile.execute fs p c
        (w.1, ⟨w.2⟩)
      | _, _ => (fs, ⟨"Error writing file: invalid arguments"⟩)
    | _ => (fs, ⟨"Error writing file: invalid arguments"⟩)
  else if name = "edit_file" then
    match args with
    | .obj flds =>
      match strField flds "path", strField flds "old_str", strField flds "new_str" with
      | some p, some o, some n =>
        let w := EditFile.execute fs p o n
        (w.1, ⟨w.2⟩)
      | _, _, _ => (fs, ⟨"Error: invalid arguments"⟩)
    | _ => (fs, ⟨"Error: invalid arguments"⟩)
  else if builtinToolNames.contains name then (fs, ⟨io name args⟩)
  else if strStarts "mcp__" name then (fs, ⟨io name args⟩)
  else (fs, ⟨"Error: Unknown tool \"" ++ name ++ "\""⟩)

/-! ## One round of the conversation loop (`sendMessage` in the `useChat`
hook)

The stream has completed (or was aborted); the model covers everything the
loop then does with the accumulated buffers: the final parse, the merge of
structured and XML tool calls, the final content decoration, the history
entry pushed for the next request, the persisted entries, the dispatched
tool calls and whether the loop continues. -/

structure HistMsg where
  role : String
  content : String
  toolCalls : List AccumulatedToolCall := []
  toolCallId : Option String := none
  reasoningDetails : List String := []
deriving DecidableEq

/-- One `onPersistMessage(role, content, toolCalls?, toolCallId?, name?)`
call (what the history store receives). -/
structure PersistCall where
  role : String
  content : String
  toolCalls : Option (List AccumulatedToolCall)
  toolCallId : Option String
  name : Option String
deriving DecidableEq

/-- What `useChat` has accumulated when `streamChat` resolves: the raw
content buffer (fed chunk by chunk through `onContentChunk`), the last
error message delivered through `onError` (empty string if none), and the
stream result. -/
structure RoundInput where
  result : StreamResult
  rawBuffer : String
  streamErrorMsg : String
deriving DecidableEq

/-- Derive the round input from the chunk list and abort point, exactly as
the `useChat` callbacks accumulate it. -/
def roundInputOfStream (chunks : List StreamChunk) (abortAfter : Option Nat) : RoundInput :=
  let sc := streamChat chunks abortAfter
  { result := sc.1
    rawBuffer := String.join (sc.2.filterMap fun e =>
      match e with
      | .contentChunk c => some c
      | _ => none)
    streamErrorMsg := ((sc.2.filterMap fun e =>
      match e with
      | .errorEvent m => some m
      | _ => none).getLast?).getD "" }

/-- `xml_tc_<ts>_<i>` ids for tool calls recovered from embedded XML; `ts`
models `Date.now()` (called once per element inside one millisecond). -/
def xmlToAccumulated (ts : Nat) (calls : List ParsedToolCall) : List AccumulatedToolCall :=
  calls.enum.map fun p =>
    { id := "xml_tc_" ++ toString ts ++ "_" ++ toString p.1
      name := p.2.name
      arguments := stringifyJson (.obj (coerceFields p.2.args)) }

/-- `JSON.parse(tc.function.arguments || "{}")` with the `catch` giving
`{}`. -/
def decodeArgs (s : String) : Json :=
  if s = "" then .obj .nil
  else match jsonParse s with
    | some j => j
    | none => .obj .nil

structure RoundOut where
  finalToolCalls : List AccumulatedToolCall
  finalContent : String
  histAppends : List HistMsg
  persistAppends : List PersistCall
  dispatches : List (String × Json)
  continueLoop : Bool

/-- The post-stream tail of one `while` iteration of `sendMessage`:
`toolRunner name args` stands for the awaited tool-execution result text.
-/
def processRound (ri : RoundInput) (ts : Nat) (toolRunner : String → Json → String) :
    RoundOut :=
  let parsed := parseModelOutput ri.rawBuffer
  let finalToolCalls :=
    if ri.result.toolCalls.length = 0 ∧ parsed.toolCalls.length > 0 then
      xmlToAccumulated ts parsed.toolCalls
    else ri.result.toolCalls
  let finalContent :=
    if ri.streamErrorMsg ≠ "" then
      (if parsed.content ≠ "" then
        parsed.content ++ "\n\n[Error: " ++ ri.streamErrorMsg ++ "]"
      else "Error: " ++ ri.streamErrorMsg)
    else if parsed.content = "" ∧ finalToolCalls.length = 0 ∧ ri.rawBuffer.length > 0 then
      "[Response truncated — the model's output was cut off mid-tool-call]\n\n" ++
        String.mk (ri.rawBuffer.data.take 500) ++
        (if ri.rawBuffer.length > 500 then "..." else "")
    else if parsed.content = "" ∧ finalToolCalls.length = 0 ∧ ri.rawBuffer.length = 0 then
      "[Empty response from API — the model returned nothing" ++
        (if ri.result.finishReason ≠ "" then
          " (finish_reason: " ++ ri.result.finishReason ++ ")"
        else "") ++ "]"
    else parsed.content
  let histAssistant : HistMsg :=
    { role := "assistant", content := ri.result.content,
      toolCalls := ri.result.toolCalls, reasoningDetails := ri.result.reasoningDetails }
  let persistAssistant : PersistCall :=
    ⟨"assistant", finalContent,
      (if finalToolCalls.length > 0 then some finalToolCalls else none), none, none⟩
  if ri.streamErrorMsg ≠ "" then
    { finalToolCalls := finalToolCalls, finalContent := finalContent
      histAppends := [histAssistant], persistAppends := [persistAssistant]
      dispatches := [], continueLoop := false }
  else
    let dispatches := finalToolCalls.map fun tc => (tc.name, decodeArgs tc.arguments)
    let toolHist := finalToolCalls.map fun tc =>
      { role := "tool", content := toolRunner tc.name (decodeArgs tc.arguments),
        toolCallId := some tc.id : HistMsg }
    let toolPersist := finalToolCalls.map fun tc =>
      (⟨"tool", toolRunner tc.name (decodeArgs tc.arguments), none, some tc.id,
        some tc.name⟩ : PersistCall)
    { finalToolCalls := finalToolCalls, finalContent := finalContent
      histAppends := histAssistant :: toolHist
      persistAppends := persistAssistant :: toolPersist
      dispatches := dispatches
      continueLoop := finalToolCalls.length > 0 }

/-- `getSystemPrompt`: recomputed on every request from the current mode,
working directory and optional `agent.md` contents. -/
def getSystemPrompt (mode : Mode) (cwd : String) (agentMd : Option String) : String :=
  let base :=
    match mode with
    | .PLAN =>
      "You are a coding assistant in a terminal (READ-ONLY mode).\nWorking directory: " ++
        cwd ++
        "\n\nAvailable tools: read_file, glob, grep, list_directory (read-only).\nYou CANNOT write, edit, or run commands. Tell the user to switch to BUILDER mode (Tab) for modifications.\nFocus on: analysis, planning, explaining code, suggesting strategies."
    | .BUILDER =>
      "You are a coding assistant in a terminal.\nWorking directory: " ++ cwd ++
        "\n\nTOOL USAGE:\n- Read before editing: always use read_file before edit_file to see current content\n- Use edit_file for modifications to existing files, write_file only for new files\n- Use glob/grep to find files before reading them\n- Use bash for git, npm, and other CLI operations\n- Execute one logical step at a time, verify results, then proceed\n\nBe concise. Show relevant code, skip obvious explanations."
  match agentMd with
  | some contents => base ++ "\n\n--- agent.md ---\n" ++ contents
  | none => base

/-- `buildHistory`: the recomputed system message followed by the retained
request history. -/
def buildHistory (mode : Mode) (cwd : String) (agentMd : Option String)
    (history : List HistMsg) : List HistMsg :=
  { role := "system", content := getSystemPrompt mode cwd agentMd } :: history

/-- The tool-schema list `sendMessage` resolves for the request
(`mode === "BUILDER" ? getToolDefinitions() : getReadOnlyToolDefinitions()`). -/
def schemasForMode (mode : Mode) (mcpDefs : List ToolDef) : List ToolDef :=
  match mode with
  | .BUILDER => getToolDefinitions mcpDefs
  | .PLAN => getReadOnlyToolDefinitions

/-! ## `list_directory` (`src/tools/list-dir.ts`)

The directory tree is its own mutual inductive family so that the listing
is structurally recursive.  `readdirSync` order is the child-list order. -/

mutual

inductive Ent where
  | file (name : String) (size : Nat) : Ent
  | dir (name : String) (children : EntList) : Ent

inductive EntList where
  | nil : EntList
  | cons (e : Ent) (t : EntList) : EntList

end

def entName : Ent → String
  | .file n _ => n
  | .dir n _ => n

/-- `formatSize`: bytes, 1-decimal KB, 1-decimal MB.  `toFixed(1)` is
modelled as rounding half away from zero on the exact quotient; the double
rounding of the source can differ only on ties no claim exercises. -/
def formatSize (bytes : Nat) : String :=
  if bytes < 1024 then toString bytes ++ "B"
  else if bytes < 1024 * 1024 then
    let tenths := (bytes * 10 + 512) / 1024
    toString (tenths / 10) ++ "." ++ toString (tenths % 10) ++ "KB"
  else
    let tenths := (bytes * 10 + 512 * 1024) / (1024 * 1024)
    toString (tenths / 10) ++ "." ++ toString (tenths % 10) ++ "MB"

def indentOf (depth : Nat) : String :=
  String.mk (List.replicate (2 * depth) ' ')

mutual

/-- The body of `listRecursive` at one directory's entry list: dot-named
entries are skipped only when `currentDepth === 0`; a directory contributes
its line and, when `currentDepth < maxDepth`, its recursive listing (whose
entry guard `currentDepth > maxDepth` is kept verbatim). -/
def listChildren : Nat → Nat → EntList → List String
  | _, _, .nil => []
  | maxDepth, cur, .cons e t =>
    (if strStarts "." (entName e) ∧ cur = 0 then []
     else
       match e with
       | .file n sz => [indentOf cur ++ n ++ " (" ++ formatSize sz ++ ")"]
       | .dir n cs =>
         (indentOf cur ++ n ++ "/") ::
           (if cur < maxDepth then
             (if cur + 1 > maxDepth then [] else listChildren maxDepth (cur + 1) cs)
           else [])) ++
      listChildren maxDepth cur t

end

/-- `listRecursive(dir, maxDepth, 0, results)` on the tree of `dir`. -/
def listRecursive (es : EntList) (maxDepth : Nat) : List String :=
  if 0 > maxDepth then [] else listChildren maxDepth 0 es

/-- `list_directory`'s `execute` (path resolution aside): joined lines or
the empty-directory notice. -/
def listDirExecute (es : EntList) (maxDepth : Nat) : String :=
  let results := listRecursive es maxDepth
  if results = [] then "Directory is empty." else String.intercalate "\n" results

mutual

/-- Claim-side listing: identical to `listChildren` except that dot-named
entries are never skipped (used to say: below the top level the filter is
inactive). -/
def listChildrenAll : Nat → Nat → EntList → List String
  | _, _, .nil => []
  | maxDepth, cur, .cons e t =>
    (match e with
     | .file n sz => [indentOf cur ++ n ++ " (" ++ formatSize sz ++ ")"]
     | .dir n cs =>
       (indentOf cur ++ n ++ "/") ::
         (if cur < maxDepth then
           (if cur + 1 > maxDepth then [] else listChildrenAll maxDepth (cur + 1) cs)
         else [])) ++
      listChildrenAll maxDepth cur t

end

/-- Claim-side top level: drop the dot-named direct children, list every
surviving child with the unfiltered listing below it. -/
def listTopSpec (maxDepth : Nat) : EntList → List String
  | .nil => []
  | .cons e t =>
    (if strStarts "." (entName e) then []
     else
       match e with
       | .file n sz => [indentOf 0 ++ n ++ " (" ++ formatSize sz ++ ")"]
       | .dir n cs =>
         (indentOf 0 ++ n ++ "/") ::
           (if 0 < maxDepth then
             (if 1 > maxDepth then [] else listChildrenAll maxDepth 1 cs)
           else [])) ++
      listTopSpec maxDepth t

/-! ## Well-formed streamed buffers (for the amended parser idempotence)

A buffer made of plain text and complete, non-interleaved `<think>` /
`<minimax:tool_call>` blocks; `okSeg` asks the payloads to be free of `<`,
which rules out the tag-splicing that refutes the unrestricted claim. -/

inductive Seg where
  | plain (text : List Char) : Seg
  | think (inner : List Char) : Seg
  | tool (inner : List Char) : Seg

def glueSeg : Seg → List Char
  | .plain t => t
  | .think t => thinkOpenTag ++ t ++ thinkCloseTag
  | .tool t => toolOpenTag ++ t ++ toolCloseTag

def glue : List Seg → List Char
  | [] => []
  | s :: rest => glueSeg s ++ glue rest

def segPayload : Seg → List Char
  | .plain t => t
  | .think t => t
  | .tool t => t

def okSeg (s : Seg) : Prop :=
  ∀ c ∈ segPayload s, c ≠ '<'

def isThinkSeg : Seg → Bool
  | .think _ => true
  | _ => false

def isToolSeg : Seg → Bool
  | .tool _ => true
  | _ => false

def isPlainSeg : Seg → Bool
  | .plain _ => true
  | _ => false

/-- `tag` admits no occurrence of `pat` starting inside it, whatever
follows: a mismatch with `pat` happens within `tag` itself.  Decidable, so
the concrete tag pairs are discharged by `decide`. -/
def NoStartIn (pat tag : List Char) : Prop :=
  ∀ i, i < tag.length →
    ∃ j, j < pat.length ∧ i + j < tag.length ∧ pat[j]? ≠ tag[i + j]?

instance (pat tag : List Char) : Decidable (NoStartIn pat tag) := by
  unfold NoStartIn
  infer_instance

instance (s : Seg) : Decidable (okSeg s) := by
  unfold okSeg
  infer_instance

/-! ## Concrete inputs used by the closed theorems -/

/-- A stream that delivers one complete structured tool-call delta and then
more chunks; the user cancels after the first chunk (`abortAfter = 1`). -/
def c1Chunks : List StreamChunk :=
  [ { usage := none, error := none,
      choices := [{ finishReason := none, reasoningDetails := [], reasoningContent := none,
                    content := some "Par",
                    toolCalls := [{ index := 0, id := some "c1", name := some "glob",
                                    arguments := some (String.mk [lbrace] ++ "\"pattern\":\"*.txt\"" ++ String.mk [rbrace]) }] }] },
    { usage := none, error := none, choices := [] } ]

/-- A completed round whose raw buffer contains a `<think>` block. -/
def c2RI : RoundInput :=
  { result := { content := "<think>hi</think>Hello", reasoningDetails := [],
                toolCalls := [], usage := ⟨0, 0, 0⟩, finishReason := "stop" },
    rawBuffer := "<think>hi</think>Hello", streamErrorMsg := "" }

/-- A stream whose single chunk carries an API-level error object. -/
def c6Chunks : List StreamChunk :=
  [{ usage := none, error := some "boom", choices := [] }]

def isTerminalEvent : StreamEvent → Bool
  | .errorEvent _ => true
  | .doneEvent _ => true
  | _ => false

def isDoneEvent : StreamEvent → Bool
  | .doneEvent _ => true
  | _ => false

def isErrorEvent : StreamEvent → Bool
  | .errorEvent _ => true
  | _ => false

/-- A completed round with no structured tool calls and one embedded XML
invocation carrying a string and an integer parameter. -/
def c7RI : RoundInput :=
  { result := { content := "", reasoningDetails := [], toolCalls := [],
                usage := ⟨0, 0, 0⟩, finishReason := "" },
    rawBuffer := "Go<minimax:tool_call><invoke name=\"glob\"><parameter name=\"pattern\">*.ts</parameter><parameter name=\"limit\">5</parameter></invoke></minimax:tool_call>",
    streamErrorMsg := "" }

/-- The write-file arguments `{path: "x", content: "y"}`. -/
def c3Args : Json :=
  .obj (.cons "path" (.str "x") (.cons "content" (.str "y") .nil))

/-- A directory containing a dot-file and a subdirectory that itself
contains a dot-file. -/
def c10Ents : EntList :=
  .cons (.file ".secret" 5)
    (.cons (.dir "sub" (.cons (.file ".hidden" 2048) (.cons (.file "a.txt" 3) .nil))) .nil)

/-- The chunks the stream loop actually consumes (the abort caps the
loop). -/
def effChunks (chunks : List StreamChunk) (abortAfter : Option Nat) : List StreamChunk :=
  match abortAfter with
  | some n => chunks.take n
  | none => chunks

/-- The extra error emitted on a completely empty response, as a function
of the consumed chunk list. -/
def emptyErrEvents (eff : List StreamChunk) : List StreamEvent :=
  if (runChunks initialStreamState eff).1.chunkCount = 0 ∧
      (runChunks initialStreamState eff).1.content = "" ∧
      (runChunks initialStreamState eff).1.toolCallsMap = [] then
    [.errorEvent "No response received from API (0 chunks)"]
  else []

/-- Whether the `for await` loop `break`s on an API-level error chunk
while consuming the list. -/
def runStopped : StreamState → List StreamChunk → Bool
  | _, [] => false
  | st, ch :: rest =>
    let step := processChunk st ch
    if step.2.2 then true else runStopped step.1 rest

/-- Whether the abort cuts the stream short: the loop then exits via the
`signal?.aborted` break or a thrown `AbortError`, which the `catch`
swallows. -/
def abortedEarly (chunks : List StreamChunk) (abortAfter : Option Nat) : Bool :=
  match abortAfter with
  | some n => decide (n < chunks.length)
  | none => false

/-- The `onError` of the `catch` block: a non-abort exception thrown by the
transport (`exn`, raised after the listed chunks were delivered) reaches
the handler only when the loop neither `break`s on an error chunk nor is
cut short by the abort. -/
def exnEvents (chunks : List StreamChunk) (abortAfter : Option Nat)
    (exn : Option String) : List StreamEvent :=
  match exn with
  | some m =>
    if runStopped initialStreamState (effChunks chunks abortAfter) ||
        abortedEarly chunks abortAfter then []
    else [.errorEvent m]
  | none => []

/-- `streamChat` with its full `try`/`catch` structure: the loop body over
the delivered chunks, the `catch` that swallows `AbortError` and reports
any other thrown exception (`exn` is its message, `none` when the stream
ends normally), the empty-response check, and the unconditional `onDone` —
in source order.  `streamChat` above is the `exn = none` special case. -/
def streamChatX (chunks : List StreamChunk) (abortAfter : Option Nat)
    (exn : Option String) : StreamResult × List StreamEvent :=
  let eff := effChunks chunks abortAfter
  let run := runChunks initialStreamState eff
  let st := run.1
  (⟨st.content, st.reasoningDetails, st.toolCallsMap.map (·.2), st.usage, st.finishReason⟩,
    run.2 ++ exnEvents chunks abortAfter exn ++ emptyErrEvents eff ++
      [.doneEvent st.usage])

/-- What the claim says the PLAN schema list is: the ReadOnly built-ins
together with the ReadOnly external-bridge tools (classification supplied,
since the code has none for bridge tools). -/
def planSchemasClaimed (mcpDefs : List ToolDef) (bridgeReadOnly : String → Bool) :
    List ToolDef :=
  getReadOnlyToolDefinitions ++ mcpDefs.filter fun d => bridgeReadOnly d.name

/-! # Theorems

First the JSON printer/parser round trip (the heart of the tool-argument
claims), then the parser, streaming-client, tool and listing results, and
finally the claim theorems themselves. -/

/-! ### List and digit basics -/

theorem takeWhile_append_of (p : Char → Bool) :
    ∀ (ds rest : List Char), (∀ c ∈ ds, p c = true) →
      (∀ h, rest.head? = some h → p h = false) →
      (ds ++ rest).takeWhile p = ds := by
  intro ds
  induction ds with
  | nil =>
    intro rest _ hr
    cases rest with
    | nil => rfl
    | cons h t => simp [List.takeWhile_cons, hr h rfl]
  | cons d ds ih =>
    intro rest hd hr
    have hpd : p d = true := hd d (by simp)
    simp only [List.cons_append, List.takeWhile_cons, hpd, if_true]
    exact congrArg (d :: ·) (ih rest (fun c hc => hd c (by simp [hc])) hr)

theorem valLE_natDigitsLE : ∀ (fuel n : Nat), n ≤ fuel →
    (natDigitsLE fuel n).foldr (fun d a => d + 10 * a) 0 = n := by
  intro fuel
  induction fuel with
  | zero => intro n h; interval_cases n; rfl
  | succ f ih =>
    intro n h
    cases n with
    | zero => rfl
    | succ m =>
      simp only [natDigitsLE, List.foldr_cons]
      have hdiv : (m + 1) / 10 ≤ f := by
        have := Nat.div_lt_self (Nat.succ_pos m) (by norm_num : 1 < 10)
        omega
      rw [ih _ hdiv]
      omega

theorem natDigitsLE_lt_ten : ∀ (fuel n : Nat), ∀ d ∈ natDigitsLE fuel n, d < 10 := by
  intro fuel
  induction fuel with
  | zero => intro n d hd; simp [natDigitsLE] at hd
  | succ f ih =>
    intro n d hd
    cases n with
    | zero => simp [natDigitsLE] at hd
    | succ m =>
      simp only [natDigitsLE, List.mem_cons] at hd
      rcases hd with h | h
      · subst h; exact Nat.mod_lt _ (by norm_num)
      · exact ih _ d h

theorem fromDigits_append_singleton (xs : List Nat) (d : Nat) :
    fromDigits (xs ++ [d]) = 10 * fromDigits xs + d := by
  simp [fromDigits, List.foldl_append]

theorem fromDigits_reverse (ds : List Nat) :
    fromDigits ds.reverse = ds.foldr (fun d a => d + 10 * a) 0 := by
  induction ds with
  | nil => rfl
  | cons d t ih =>
    simp only [List.reverse_cons, List.foldr_cons, fromDigits_append_singleton, ih]
    omega

theorem fromDigits_replicate_zero (k : Nat) (ds : List Nat) :
    fromDigits (List.replicate k 0 ++ ds) = fromDigits ds := by
  induction k with
  | zero => rfl
  | succ n ih =>
    simpa [List.replicate_succ, fromDigits] using ih

theorem fromDigits_natDigitsPad (n pad : Nat) : fromDigits (natDigitsPad n pad) = n := by
  unfold natDigitsPad
  rw [fromDigits_replicate_zero, fromDigits_reverse, valLE_natDigitsLE n n le_rfl]

theorem natDigitsPad_lt_ten (n pad : Nat) : ∀ d ∈ natDigitsPad n pad, d < 10 := by
  intro d hd
  unfold natDigitsPad at hd
  simp only [List.mem_append, List.mem_replicate, List.mem_reverse] at hd
  rcases hd with h | h
  · omega
  · exact natDigitsLE_lt_ten n n d h

theorem natDigitsPad_length (n pad : Nat) : pad ≤ (natDigitsPad n pad).length := by
  unfold natDigitsPad
  simp only [List.length_append, List.length_replicate]
  omega

theorem digitChar_toNat {d : Nat} (h : d < 10) : (digitChar d).toNat = 48 + d := by
  interval_cases d <;> decide

theorem digitVal_digitChar {d : Nat} (h : d < 10) : digitVal (digitChar d) = d := by
  simp [digitVal, digitChar_toNat h]

theorem isDigitChar_digitChar {d : Nat} (h : d < 10) : isDigitChar (digitChar d) = true := by
  simp [isDigitChar, digitChar_toNat h]; omega

theorem digitChar_props {d : Nat} (h : d < 10) :
    isWsChar (digitChar d) = false ∧ digitChar d ≠ '-' ∧ digitChar d ≠ '.' ∧
      digitChar d ≠ ']' ∧ digitChar d ≠ ',' ∧ digitChar d ≠ rbrace ∧
      digitChar d ≠ '"' ∧ digitChar d ≠ '[' ∧ digitChar d ≠ lbrace ∧
      digitChar d ≠ 'n' ∧ digitChar d ≠ 't' ∧ digitChar d ≠ 'f' ∧ digitChar d ≠ ':' := by
  interval_cases d <;> exact ⟨by decide, by decide, by decide, by decide, by decide,
    by decide, by decide, by decide, by decide, by decide, by decide, by decide, by decide⟩

theorem isDigitChar_not_special {c : Char} (h : isDigitChar c = true) :
    isWsChar c = false ∧ c ≠ '.' ∧ c ≠ ']' ∧ c ≠ ',' ∧ c ≠ rbrace ∧ c ≠ '-' := by
  have hb : 48 ≤ c.toNat ∧ c.toNat ≤ 57 := of_decide_eq_true h
  constructor
  · show decide _ = false
    apply decide_eq_false
    intro hor
    rcases hor with h1 | h1 | h1 | h1 <;> subst h1 <;> revert hb <;> decide
  refine ⟨?_, ?_, ?_, ?_, ?_⟩ <;> · intro h1; subst h1; revert hb; decide

/-! ### String escaping round trip -/

theorem hexVal_hexDigitChar {n : Nat} (h : n < 16) : hexVal (hexDigitChar n) = some n := by
  interval_cases n <;> decide

theorem parseStrBody_quote (r : List Char) : parseStrBody ('"' :: r) = some ([], r) := by
  rw [parseStrBody.eq_def]
  simp

theorem parseStrBody_esc (e u : Char) (hu : unescChar e = some u) (he : ¬ e = 'u')
    (r : List Char) :
    parseStrBody ('\\' :: e :: r) = (parseStrBody r).map fun p => (u :: p.1, p.2) := by
  rw [parseStrBody.eq_def]
  simp [he, hu]

theorem parseStrBody_unicode (a b c2 d : Char) (va vb vc vd : Nat) (r : List Char)
    (ha : hexVal a = some va) (hb : hexVal b = some vb) (hc : hexVal c2 = some vc)
    (hd : hexVal d = some vd) :
    parseStrBody ('\\' :: 'u' :: a :: b :: c2 :: d :: r) =
      (parseStrBody r).map fun p =>
        (Char.ofNat (((va * 16 + vb) * 16 + vc) * 16 + vd) :: p.1, p.2) := by
  rw [parseStrBody.eq_def]
  simp [ha, hb, hc, hd]

theorem parseStrBody_lit (c : Char) (h1 : ¬ c = '"') (h2 : ¬ c = '\\') (r : List Char) :
    parseStrBody (c :: r) = (parseStrBody r).map fun p => (c :: p.1, p.2) := by
  rw [parseStrBody.eq_def]
  simp [h1, h2]

theorem parseStrBody_escList : ∀ (cs rest : List Char),
    parseStrBody (escList cs ++ '"' :: rest) = some (cs, rest) := by
  intro cs
  induction cs with
  | nil => intro rest; simpa [escList] using parseStrBody_quote rest
  | cons c t ih =>
    intro rest
    rw [show escList (c :: t) = escChar c ++ escList t from rfl, List.append_assoc]
    by_cases h1 : c = '"'
    · subst h1
      rw [show escChar '"' = ['\\', '"'] from rfl]
      simp only [List.cons_append, List.nil_append]
      rw [parseStrBody_esc '"' '"' (by decide) (by decide), ih]
      rfl
    by_cases h2 : c = '\\'
    · subst h2
      rw [show escChar '\\' = ['\\', '\\'] from rfl]
      simp only [List.cons_append, List.nil_append]
      rw [parseStrBody_esc '\\' '\\' (by decide) (by decide), ih]
      rfl
    by_cases h3 : c = '\n'
    · subst h3
      rw [show escChar '\n' = ['\\', 'n'] from rfl]
      simp only [List.cons_append, List.nil_append]
      rw [parseStrBody_esc 'n' '\n' (by decide) (by decide), ih]
      rfl
    by_cases h4 : c = '\r'
    · subst h4
      rw [show escChar '\r' = ['\\', 'r'] from rfl]
      simp only [List.cons_append, List.nil_append]
      rw [parseStrBody_esc 'r' '\r' (by decide) (by decide), ih]
      rfl
    by_cases h5 : c = '\t'
    · subst h5
      rw [show escChar '\t' = ['\\', 't'] from rfl]
      simp only [List.cons_append, List.nil_append]
      rw [parseStrBody_esc 't' '\t' (by decide) (by decide), ih]
      rfl
    by_cases h6 : c.toNat = 8
    · have hc : c = Char.ofNat 8 := by
        have := Char.ofNat_toNat c
        rw [h6] at this
        exact this.symm
      subst hc
      rw [show escChar (Char.ofNat 8) = ['\\', 'b'] from rfl]
      simp only [List.cons_append, List.nil_append]
      rw [parseStrBody_esc 'b' (Char.ofNat 8) (by decide) (by decide), ih]
      rfl
    by_cases h7 : c.toNat = 12
    · have hc : c = Char.ofNat 12 := by
        have := Char.ofNat_toNat c
        rw [h7] at this
        exact this.symm
      subst hc
      rw [show escChar (Char.ofNat 12) = ['\\', 'f'] from rfl]
      simp only [List.cons_append, List.nil_append]
      rw [parseStrBody_esc 'f' (Char.ofNat 12) (by decide) (by decide), ih]
      rfl
    by_cases h8 : c.toNat < 32
    · have hesc : escChar c =
          ['\\', 'u', '0', '0', hexDigitChar (c.toNat / 16), hexDigitChar (c.toNat % 16)] := by
        simp only [escChar, if_neg h1, if_neg h2, if_neg h3, if_neg h4, if_neg h5,
          if_neg h6, if_neg h7, if_pos h8]
      rw [hesc]
      simp only [List.cons_append, List.nil_append]
      rw [parseStrBody_unicode '0' '0' _ _ 0 0 (c.toNat / 16) (c.toNat % 16) _
        (by decide) (by decide) (hexVal_hexDigitChar (by omega)) (hexVal_hexDigitChar (by omega)),
        ih]
      have harith : ((0 * 16 + 0) * 16 + c.toNat / 16) * 16 + c.toNat % 16 = c.toNat := by
        omega
      rw [harith, Char.ofNat_toNat]
      rfl
    · have hesc : escChar c = [c] := by
        simp only [escChar, if_neg h1, if_neg h2, if_neg h3, if_neg h4, if_neg h5,
          if_neg h6, if_neg h7, if_neg h8]
      rw [hesc]
      simp only [List.cons_append, List.nil_append]
      rw [parseStrBody_lit c h1 h2, ih]
      rfl

/-! ### Number round trip -/

theorem printNum_eq_sign_body (m : Int) (e : Nat) :
    printNum m e =
      (if m < 0 then ['-'] else []) ++ printNumBody (natDigitsPad m.natAbs (e + 1)) e := by
  rfl

theorem map_digitVal_digitChar {ds : List Nat} (hlt : ∀ d ∈ ds, d < 10) :
    (ds.map digitChar).map digitVal = ds := by
  rw [List.map_map]
  have : ∀ d ∈ ds, (digitVal ∘ digitChar) d = d := fun d hd => digitVal_digitChar (hlt d hd)
  rw [List.map_congr_left this]
  simp

theorem parseNumCore_digits (neg : Bool) (ds : List Nat) (e : Nat) (rest : List Char)
    (hlen : e + 1 ≤ ds.length) (hlt : ∀ d ∈ ds, d < 10)
    (hrest : ∀ h, rest.head? = some h → isDigitChar h = false ∧ h ≠ '.') :
    parseNumCore neg (printNumBody ds e ++ rest) =
      some (.num (if neg then -(fromDigits ds : Int) else (fromDigits ds : Int)) e, rest) := by
  have hcsd : ∀ c ∈ ds.map digitChar, isDigitChar c = true := by
    intro c hc
    obtain ⟨d, hd, rfl⟩ := List.mem_map.mp hc
    exact isDigitChar_digitChar (hlt d hd)
  set cs := ds.map digitChar with hcs
  have hcslen : cs.length = ds.length := List.length_map _ _
  rcases Nat.eq_zero_or_pos e with he | he
  · subst he
    have hbody : printNumBody ds 0 = cs := by simp [printNumBody]
    rw [hbody]
    have htw : (cs ++ rest).takeWhile isDigitChar = cs :=
      takeWhile_append_of _ cs rest hcsd (fun h hh => ((hrest h hh).1))
    have hdrop : (cs ++ rest).drop cs.length = rest := List.drop_left _ _
    have hne : cs ≠ [] := by
      intro h
      rw [h] at hcslen
      simp at hcslen
      omega
    have hdot : ¬ rest.head? = some '.' := by
      cases hr : rest.head? with
      | none => simp
      | some h => simpa [hr] using (hrest h hr).2
    unfold parseNumCore
    simp only [htw, hdrop, if_neg hne, if_neg hdot, map_digitVal_digitChar hlt]
  · have hLe : 1 ≤ ds.length - e := by omega
    have hbody : printNumBody ds e = cs.take (ds.length - e) ++ '.' :: cs.drop (ds.length - e) := by
      unfold printNumBody
      rw [if_neg (by omega)]
    rw [hbody]
    have hassoc : (cs.take (ds.length - e) ++ '.' :: cs.drop (ds.length - e)) ++ rest =
        cs.take (ds.length - e) ++ '.' :: (cs.drop (ds.length - e) ++ rest) := by
      simp
    rw [hassoc]
    have htakemem : ∀ c ∈ cs.take (ds.length - e), isDigitChar c = true :=
      fun c hc => hcsd c (List.mem_of_mem_take hc)
    have htw1 : (cs.take (ds.length - e) ++ '.' :: (cs.drop (ds.length - e) ++ rest)).takeWhile
        isDigitChar = cs.take (ds.length - e) :=
      takeWhile_append_of _ _ _ htakemem (by intro h hh; simp at hh; subst hh; decide)
    have hdrop1 : (cs.take (ds.length - e) ++ '.' :: (cs.drop (ds.length - e) ++ rest)).drop
        (cs.take (ds.length - e)).length = '.' :: (cs.drop (ds.length - e) ++ rest) :=
      List.drop_left _ _
    have hne1 : cs.take (ds.length - e) ≠ [] := by
      have : (cs.take (ds.length - e)).length = ds.length - e := by
        rw [List.length_take]
        omega
      intro h
      rw [h] at this
      simp at this
      omega
    have hdropmem : ∀ c ∈ cs.drop (ds.length - e), isDigitChar c = true :=
      fun c hc => hcsd c (List.mem_of_mem_drop hc)
    have htw2 : (cs.drop (ds.length - e) ++ rest).takeWhile isDigitChar =
        cs.drop (ds.length - e) :=
      takeWhile_append_of _ _ _ hdropmem (fun h hh => (hrest h hh).1)
    have hne2 : cs.drop (ds.length - e) ≠ [] := by
      have : (cs.drop (ds.length - e)).length = e := by
        rw [List.length_drop]
        omega
      intro h
      rw [h] at this
      simp at this
      omega
    have hlen2 : (cs.drop (ds.length - e)).length = e := by
      rw [List.length_drop]
      omega
    have hdrop2 : List.drop e (List.drop (ds.length - e) cs ++ rest) = rest := by
      have h := List.drop_left (List.drop (ds.length - e) cs) rest
      rwa [hlen2] at h
    unfold parseNumCore
    simp only [htw1, hdrop1, if_neg hne1, List.head?_cons, List.tail_cons, if_pos rfl,
      htw2, if_neg hne2, List.take_append_drop, map_digitVal_digitChar hlt,
      hlen2, hdrop2, if_true]

theorem cs_cons_shape (ds : List Nat) (e : Nat) (hlen : e + 1 ≤ ds.length)
    (hlt : ∀ d ∈ ds, d < 10) :
    ∃ d0 t, printNumBody ds e = digitChar d0 :: t ∧ d0 < 10 := by
  have : ds ≠ [] := by
    intro h
    rw [h] at hlen
    simp at hlen
  obtain ⟨d0, ds', rfl⟩ := List.exists_cons_of_ne_nil this
  have hd0 : d0 < 10 := hlt d0 (by simp)
  rcases Nat.eq_zero_or_pos e with he | he
  · subst he
    exact ⟨d0, ds'.map digitChar, by simp [printNumBody], hd0⟩
  · have h1 : 1 ≤ (d0 :: ds').length - e := by simp at hlen ⊢; omega
    obtain ⟨k, hk⟩ : ∃ k, (d0 :: ds').length - e = k + 1 := ⟨_, (Nat.succ_pred_eq_of_pos h1).symm⟩
    refine ⟨d0,
      (ds'.map digitChar).take k ++ '.' :: (((d0 :: ds').map digitChar).drop (k + 1)),
      ?_, hd0⟩
    unfold printNumBody
    rw [if_neg (by omega), hk]
    simp [List.take_succ_cons]

theorem parseNum_printNum (m : Int) (e : Nat) (rest : List Char)
    (hrest : ∀ h, rest.head? = some h → isDigitChar h = false ∧ h ≠ '.') :
    parseNum (printNum m e ++ rest) = some (.num m e, rest) := by
  have hlen : e + 1 ≤ (natDigitsPad m.natAbs (e + 1)).length := natDigitsPad_length _ _
  have hlt : ∀ d ∈ natDigitsPad m.natAbs (e + 1), d < 10 := natDigitsPad_lt_ten _ _
  have hval : fromDigits (natDigitsPad m.natAbs (e + 1)) = m.natAbs :=
    fromDigits_natDigitsPad _ _
  rw [printNum_eq_sign_body]
  obtain ⟨d0, t, hbody, hd0⟩ := cs_cons_shape _ e hlen hlt
  rcases lt_or_le m 0 with hm | hm
  · rw [if_pos hm]
    have : (['-'] ++ printNumBody (natDigitsPad m.natAbs (e + 1)) e) ++ rest =
        '-' :: (printNumBody (natDigitsPad m.natAbs (e + 1)) e ++ rest) := by simp
    rw [this]
    unfold parseNum
    simp only [List.head?_cons, List.tail_cons, if_pos rfl]
    have habs : -((m.natAbs : Int)) = m := by omega
    rw [parseNumCore_digits true _ e rest hlen hlt hrest, hval, if_pos rfl, habs]
    simp
  · rw [if_neg (by omega)]
    simp only [List.nil_append]
    unfold parseNum
    have hhead : (printNumBody (natDigitsPad m.natAbs (e + 1)) e ++ rest).head? =
        some (digitChar d0) := by
      rw [hbody]
      simp
    rw [hhead]
    have hne : digitChar d0 ≠ '-' := (digitChar_props hd0).2.1
    rw [if_neg (by simpa using hne)]
    have habs : ((m.natAbs : Int)) = m := by omega
    rw [parseNumCore_digits false _ e rest hlen hlt hrest, hval, if_neg (by decide), habs]

/-! ### The full printer/parser round trip -/

theorem stringMk_data (s : String) : String.mk s.data = s := rfl

theorem jcount_pos : ∀ j : Json, 1 ≤ jcount j := by
  intro j
  cases j <;> simp [jcount]

theorem printJson_cons : ∀ j : Json, ∃ c t, printJson j = c :: t ∧
    isWsChar c = false ∧ c ≠ ']' := by
  intro j
  cases j with
  | null => exact ⟨'n', _, rfl, by decide, by decide⟩
  | bool b =>
    cases b with
    | false => exact ⟨'f', _, rfl, by decide, by decide⟩
    | true => exact ⟨'t', _, rfl, by decide, by decide⟩
  | num m e =>
    have hlen : e + 1 ≤ (natDigitsPad m.natAbs (e + 1)).length := natDigitsPad_length _ _
    have hlt := natDigitsPad_lt_ten m.natAbs (e + 1)
    obtain ⟨d0, t, hbody, hd0⟩ := cs_cons_shape _ e hlen hlt
    show ∃ c t, printNum m e = c :: t ∧ _
    rw [printNum_eq_sign_body]
    rcases lt_or_le m 0 with hm | hm
    · rw [if_pos hm]
      exact ⟨'-', _, rfl, by decide, by decide⟩
    · rw [if_neg (by omega), hbody]
      have h := digitChar_props hd0
      exact ⟨digitChar d0, t, rfl, h.1, h.2.2.2.1⟩
  | str s => exact ⟨'"', _, rfl, by decide, by decide⟩
  | arr es =>
    cases es with
    | nil => exact ⟨'[', _, rfl, by decide, by decide⟩
    | cons x t => exact ⟨'[', _, rfl, by decide, by decide⟩
  | obj fs =>
    cases fs with
    | nil => exact ⟨lbrace, _, rfl, by decide, by decide⟩
    | cons k v t => exact ⟨lbrace, _, rfl, by decide, by decide⟩

theorem dropWhileWs_cons_false {c : Char} {l : List Char} (h : isWsChar c = false) :
    List.dropWhile isWsChar (c :: l) = c :: l := by
  simp [List.dropWhile_cons, h]

theorem skipWs_print (j : Json) (X : List Char) :
    skipWs (printJson j ++ X) = printJson j ++ X := by
  obtain ⟨c, t, hj, hws, _⟩ := printJson_cons j
  rw [hj]
  simp [skipWs, List.dropWhile_cons, hws]

theorem parseValue_lbracket (f : Nat) (R : List Char) :
    parseValue (f + 1) ('[' :: R) =
      match skipWs R with
      | [] => none
      | c' :: r' =>
        if c' = ']' then some (.arr .nil, r')
        else
          match parseValue f (c' :: r') with
          | none => none
          | some (x, r'') =>
            match parseArrTail f r'' with
            | none => none
            | some (xs, r3) => some (.arr (.cons x xs), r3) := by
  rw [parseValue.eq_def]
  simp only [skipWs, dropWhileWs_cons_false (show isWsChar '[' = false by decide)]
  simp

theorem parseValue_lbrace (f : Nat) (R : List Char) :
    parseValue (f + 1) (lbrace :: R) =
      match skipWs R with
      | [] => none
      | c' :: r' =>
        if c' = rbrace then some (.obj .nil, r')
        else
          match parseField f (c' :: r') with
          | none => none
          | some (fd, r'') =>
            match parseObjTail f r'' with
            | none => none
            | some (fs, r3) => some (.obj (.cons fd.1 fd.2 fs), r3) := by
  rw [parseValue.eq_def]
  simp only [skipWs, dropWhileWs_cons_false (show isWsChar lbrace = false by decide)]
  have e1 : ¬ lbrace = 'n' := by decide
  have e2 : ¬ lbrace = 't' := by decide
  have e3 : ¬ lbrace = 'f' := by decide
  have e4 : ¬ lbrace = '"' := by decide
  have e5 : ¬ lbrace = '[' := by decide
  simp [e1, e2, e3, e4, e5]

theorem parseValue_fallthrough (f : Nat) (c : Char) (r : List Char)
    (hws : isWsChar c = false)
    (h1 : ¬ c = 'n') (h2 : ¬ c = 't') (h3 : ¬ c = 'f')
    (h4 : ¬ c = '"') (h5 : ¬ c = '[') (h6 : ¬ c = lbrace) :
    parseValue (f + 1) (c :: r) = parseNum (c :: r) := by
  rw [parseValue.eq_def]
  simp only [skipWs, dropWhileWs_cons_false hws]
  simp [h1, h2, h3, h4, h5, h6]

theorem parseValue_quote (f : Nat) (r : List Char) :
    parseValue (f + 1) ('"' :: r) =
      (parseStrBody r).map fun p => (.str (String.mk p.1), p.2) := by
  rw [parseValue.eq_def]
  simp only [skipWs, dropWhileWs_cons_false (show isWsChar '"' = false by decide)]
  simp

theorem numDelim_arrSep (t : JList) (rest : List Char) :
    NumDelim (printJListTail t ++ ']' :: rest) := by
  cases t with
  | nil => intro h hh; simp [printJListTail] at hh; subst hh; exact ⟨by decide, by decide⟩
  | cons x u =>
    intro h hh
    simp [printJListTail] at hh
    subst hh
    exact ⟨by decide, by decide⟩

theorem numDelim_objSep (t : JFields) (rest : List Char) :
    NumDelim (printJFieldsTail t ++ rbrace :: rest) := by
  cases t with
  | nil => intro h hh; simp [printJFieldsTail] at hh; subst hh; exact ⟨by decide, by decide⟩
  | cons k v u =>
    intro h hh
    simp [printJFieldsTail] at hh
    subst hh
    exact ⟨by decide, by decide⟩

theorem parse_print_all : ∀ fuel : Nat,
    (∀ j rest, jcount j ≤ fuel → NumDelim rest →
      parseValue fuel (printJson j ++ rest) = some (j, rest)) ∧
    (∀ t rest, jcountL t + 1 ≤ fuel →
      parseArrTail fuel (printJListTail t ++ ']' :: rest) = some (t, rest)) ∧
    (∀ (k : String) (v : Json) rest, jcount v + 1 ≤ fuel → NumDelim rest →
      parseField fuel (printStrChars k.data ++ ':' :: printJson v ++ rest) =
        some ((k, v), rest)) ∧
    (∀ t rest, jcountF t + 1 ≤ fuel →
      parseObjTail fuel (printJFieldsTail t ++ rbrace :: rest) = some (t, rest)) := by
  intro fuel
  induction fuel using Nat.strong_induction_on with
  | _ fuel ih =>
  refine ⟨?_, ?_, ?_, ?_⟩
  · intro j rest hc hrest
    obtain ⟨f, rfl⟩ : ∃ f, fuel = f + 1 := ⟨fuel - 1, by have := jcount_pos j; omega⟩
    have IH := ih f (by omega)
    cases j with
    | null =>
      rw [show printJson .null = ['n', 'u', 'l', 'l'] from rfl]
      rw [parseValue.eq_def]
      simp only [List.cons_append, List.nil_append, skipWs,
        dropWhileWs_cons_false (show isWsChar 'n' = false by decide)]
      simp
    | bool b =>
      cases b with
      | true =>
        rw [show printJson (.bool true) = ['t', 'r', 'u', 'e'] from rfl]
        rw [parseValue.eq_def]
        simp only [List.cons_append, List.nil_append, skipWs,
          dropWhileWs_cons_false (show isWsChar 't' = false by decide)]
        simp
      | false =>
        rw [show printJson (.bool false) = ['f', 'a', 'l', 's', 'e'] from rfl]
        rw [parseValue.eq_def]
        simp only [List.cons_append, List.nil_append, skipWs,
          dropWhileWs_cons_false (show isWsChar 'f' = false by decide)]
        simp
    | str s =>
      rw [show printJson (.str s) = '"' :: (escList s.data ++ ['"']) from rfl]
      simp only [List.cons_append, List.append_assoc, List.nil_append]
      rw [parseValue_quote, parseStrBody_escList]
      simp [stringMk_data]
    | num m e =>
      obtain ⟨c, t, hj, hws, _⟩ := printJson_cons (.num m e)
      have hnum : printJson (.num m e) = printNum m e := rfl
      have hd : isDigitChar c = true ∨ c = '-' := by
        rw [hnum] at hj
        rw [printNum_eq_sign_body] at hj
        rcases lt_or_le m 0 with hm | hm
        · rw [if_pos hm] at hj
          right
          exact (by simpa using congrArg List.head? hj : '-' = c).symm
        · rw [if_neg (by omega)] at hj
          obtain ⟨d0, t0, hbody, hd0⟩ := cs_cons_shape (natDigitsPad m.natAbs (e + 1)) e
            (natDigitsPad_length _ _) (natDigitsPad_lt_ten _ _)
          rw [hbody] at hj
          simp only [List.nil_append, List.cons.injEq] at hj
          left
          rw [← hj.1]
          exact isDigitChar_digitChar hd0
      have hfacts : ¬ c = 'n' ∧ ¬ c = 't' ∧ ¬ c = 'f' ∧ ¬ c = '"' ∧ ¬ c = '[' ∧
          ¬ c = lbrace := by
        rcases hd with hd | hd
        · have hb : 48 ≤ c.toNat ∧ c.toNat ≤ 57 := of_decide_eq_true hd
          refine ⟨?_, ?_, ?_, ?_, ?_, ?_⟩ <;> · intro h1; subst h1; revert hb; decide
        · subst hd
          exact ⟨by decide, by decide, by decide, by decide, by decide, by decide⟩
      rw [hj, List.cons_append]
      rw [parseValue_fallthrough f c (t ++ rest) hws
        hfacts.1 hfacts.2.1 hfacts.2.2.1 hfacts.2.2.2.1 hfacts.2.2.2.2.1
        hfacts.2.2.2.2.2]
      rw [← List.cons_append, ← hj]
      exact parseNum_printNum m e rest hrest
    | arr es =>
      cases es with
      | nil =>
        rw [show printJson (.arr .nil) = ['[', ']'] from rfl]
        simp only [List.cons_append, List.nil_append]
        rw [parseValue_lbracket]
        simp only [skipWs, dropWhileWs_cons_false (show isWsChar ']' = false by decide)]
        simp
      | cons x t =>
        rw [show printJson (.arr (.cons x t)) =
          '[' :: (printJson x ++ (printJListTail t ++ [']'])) from by
            simp [printJson, printJListTail]]
        simp only [List.cons_append, List.append_assoc, List.nil_append]
        rw [parseValue_lbracket]
        rw [skipWs_print x (printJListTail t ++ ']' :: rest)]
        obtain ⟨c, tl, hx, hws, hnb⟩ := printJson_cons x
        rw [hx, List.cons_append]
        have hcx : jcount x ≤ f := by
          simp [jcount, jcountL] at hc
          omega
        have hct : jcountL t + 1 ≤ f := by
          simp [jcount, jcountL] at hc
          omega
        have hv : parseValue f (c :: (tl ++ (printJListTail t ++ ']' :: rest))) =
            some (x, printJListTail t ++ ']' :: rest) := by
          rw [show c :: (tl ++ (printJListTail t ++ ']' :: rest)) =
            printJson x ++ (printJListTail t ++ ']' :: rest) from by rw [hx]; simp]
          exact IH.1 x _ hcx (numDelim_arrSep t rest)
        simp only [if_neg hnb, hv]
        rw [IH.2.1 t rest hct]
    | obj fs =>
      cases fs with
      | nil =>
        rw [show printJson (.obj .nil) = [lbrace, rbrace] from rfl]
        simp only [List.cons_append, List.nil_append]
        rw [parseValue_lbrace]
        simp only [skipWs, dropWhileWs_cons_false (show isWsChar rbrace = false by decide)]
        simp
      | cons k v t =>
        have hcv : jcount v + 1 ≤ f := by
          simp [jcount, jcountF] at hc
          omega
        have hct : jcountF t + 1 ≤ f := by
          simp [jcount, jcountF] at hc
          omega
        have hfld := IH.2.2.1 k v (printJFieldsTail t ++ rbrace :: rest) hcv
          (numDelim_objSep t rest)
        have hobj := IH.2.2.2 t rest hct
        rw [show printJson (.obj (.cons k v t)) =
          lbrace :: (printStrChars k.data ++ ':' :: printJson v ++
            (printJFieldsTail t ++ [rbrace])) from by
            simp [printJson, printJFieldsTail]]
        simp only [printStrChars, List.cons_append, List.append_assoc,
          List.nil_append] at hfld ⊢
        rw [parseValue_lbrace]
        simp only [skipWs, dropWhileWs_cons_false (show isWsChar '"' = false by decide)]
        simp [hfld, hobj, show ¬ ('"' : Char) = rbrace from by decide]
  · intro t rest hc
    obtain ⟨f, rfl⟩ : ∃ f, fuel = f + 1 := ⟨fuel - 1, by omega⟩
    have IH := ih f (by omega)
    cases t with
    | nil =>
      rw [show printJListTail .nil = ([] : List Char) from rfl]
      rw [parseArrTail.eq_def]
      simp only [List.nil_append, skipWs,
        dropWhileWs_cons_false (show isWsChar ']' = false by decide)]
      simp
    | cons x u =>
      rw [show printJListTail (.cons x u) = ',' :: (printJson x ++ printJListTail u)
        from rfl]
      simp only [List.cons_append, List.append_assoc]
      rw [parseArrTail.eq_def]
      simp only [skipWs, dropWhileWs_cons_false (show isWsChar ',' = false by decide)]
      have hcx : jcount x ≤ f := by
        simp [jcountL] at hc
        omega
      have hcu : jcountL u + 1 ≤ f := by
        simp [jcountL] at hc
        omega
      have hv := IH.1 x (printJListTail u ++ ']' :: rest) hcx (numDelim_arrSep u rest)
      have hu := IH.2.1 u rest hcu
      simp [hv, hu]
  · intro k v rest hc hrest
    obtain ⟨f, rfl⟩ : ∃ f, fuel = f + 1 := ⟨fuel - 1, by omega⟩
    have IH := ih f (by omega)
    rw [show printStrChars k.data ++ ':' :: printJson v ++ rest =
      '"' :: (escList k.data ++ '"' :: (':' :: (printJson v ++ rest))) from by
        simp [printStrChars]]
    rw [parseField.eq_def]
    simp only [skipWs, dropWhileWs_cons_false (show isWsChar '"' = false by decide)]
    have hbody := parseStrBody_escList k.data (':' :: (printJson v ++ rest))
    have hcv : jcount v ≤ f := by omega
    have hval := IH.1 v rest hcv hrest
    simp only [hbody]
    simp [dropWhileWs_cons_false (show isWsChar ':' = false by decide), hval, stringMk_data]
  · intro t rest hc
    obtain ⟨f, rfl⟩ : ∃ f, fuel = f + 1 := ⟨fuel - 1, by omega⟩
    have IH := ih f (by omega)
    cases t with
    | nil =>
      rw [show printJFieldsTail .nil = ([] : List Char) from rfl]
      rw [parseObjTail.eq_def]
      simp only [List.nil_append, skipWs,
        dropWhileWs_cons_false (show isWsChar rbrace = false by decide)]
      simp
    | cons k v u =>
      rw [show printJFieldsTail (.cons k v u) =
        ',' :: (printStrChars k.data ++ ':' :: printJson v ++ printJFieldsTail u)
        from rfl]
      simp only [List.cons_append, List.append_assoc]
      rw [parseObjTail.eq_def]
      simp only [skipWs, dropWhileWs_cons_false (show isWsChar ',' = false by decide)]
      have hcv : jcount v + 1 ≤ f := by
        simp [jcountF] at hc
        omega
      have hcu : jcountF u + 1 ≤ f := by
        simp [jcountF] at hc
        omega
      have hfld := IH.2.2.1 k v (printJFieldsTail u ++ rbrace :: rest) hcv
        (numDelim_objSep u rest)
      have hu := IH.2.2.2 u rest hcu
      simp only [List.append_assoc, List.cons_append] at hfld
      simp [hfld, hu, show ¬ (',' : Char) = rbrace from by decide]

theorem printNumBody_length_pos (m : Int) (e : Nat) :
    1 ≤ (printNum m e).length := by
  obtain ⟨c, t, hj, _⟩ := cs_cons_shape (natDigitsPad m.natAbs (e + 1)) e
    (natDigitsPad_length _ _) (natDigitsPad_lt_ten _ _)
  rw [printNum_eq_sign_body, hj]
  simp
  omega

theorem jcount_le_printLen : ∀ n : Nat,
    (∀ j : Json, sizeOf j ≤ n → jcount j ≤ (printJson j).length) ∧
    (∀ t : JList, sizeOf t ≤ n → jcountL t ≤ (printJListTail t).length) ∧
    (∀ t : JFields, sizeOf t ≤ n → jcountF t ≤ (printJFieldsTail t).length) := by
  intro n
  induction n using Nat.strong_induction_on with
  | _ n ih =>
  refine ⟨?_, ?_, ?_⟩
  · intro j hs
    cases j with
    | null => simp [jcount, printJson]
    | bool b => cases b <;> simp [jcount, printJson]
    | num m e =>
      have := printNumBody_length_pos m e
      simp only [jcount]
      exact this
    | str s => simp [jcount, printJson, printStrChars]
    | arr es =>
      cases es with
      | nil => simp [jcount, jcountL, printJson]
      | cons x t =>
        have hx : sizeOf x < n := by
          have : sizeOf x < sizeOf (Json.arr (JList.cons x t)) := by simp <;> omega
          omega
        have ht : sizeOf t < n := by
          have : sizeOf t < sizeOf (Json.arr (JList.cons x t)) := by simp <;> omega
          omega
        have h1 := (ih (sizeOf x) hx).1 x le_rfl
        have h2 := (ih (sizeOf t) ht).2.1 t le_rfl
        simp only [jcount, jcountL, printJson, List.length_cons, List.length_append]
        omega
    | obj fs =>
      cases fs with
      | nil => simp [jcount, jcountF, printJson]
      | cons k v t =>
        have hv : sizeOf v < n := by
          have : sizeOf v < sizeOf (Json.obj (JFields.cons k v t)) := by simp <;> omega
          omega
        have ht : sizeOf t < n := by
          have : sizeOf t < sizeOf (Json.obj (JFields.cons k v t)) := by simp <;> omega
          omega
        have h1 := (ih (sizeOf v) hv).1 v le_rfl
        have h2 := (ih (sizeOf t) ht).2.2 t le_rfl
        simp only [jcount, jcountF, printJson, List.length_cons, List.length_append]
        omega
  · intro t hs
    cases t with
    | nil => simp [jcountL, printJListTail]
    | cons x u =>
      have hx : sizeOf x < n := by
        have : sizeOf x < sizeOf (JList.cons x u) := by simp <;> omega
        omega
      have hu : sizeOf u < n := by
        have : sizeOf u < sizeOf (JList.cons x u) := by simp <;> omega
        omega
      have h1 := (ih (sizeOf x) hx).1 x le_rfl
      have h2 := (ih (sizeOf u) hu).2.1 u le_rfl
      simp only [jcountL, printJListTail, List.length_cons, List.length_append]
      omega
  · intro t hs
    cases t with
    | nil => simp [jcountF, printJFieldsTail]
    | cons k v u =>
      have hv : sizeOf v < n := by
        have : sizeOf v < sizeOf (JFields.cons k v u) := by simp <;> omega
        omega
      have hu : sizeOf u < n := by
        have : sizeOf u < sizeOf (JFields.cons k v u) := by simp <;> omega
        omega
      have h1 := (ih (sizeOf v) hv).1 v le_rfl
      have h2 := (ih (sizeOf u) hu).2.2 u le_rfl
      simp only [jcountF, printJFieldsTail, List.length_cons, List.length_append]
      omega

/-- The central JSON fact: parsing a printed value gives the value back,
for every value of the model. -/
theorem jsonParse_stringify (j : Json) : jsonParse (stringifyJson j) = some j := by
  unfold jsonParse stringifyJson
  have hdata : (String.mk (printJson j)).data = printJson j := rfl
  have hlen : (String.mk (printJson j)).length = (printJson j).length := rfl
  rw [hdata, hlen]
  have hfuel : jcount j ≤ (printJson j).length + 1 := by
    have := (jcount_le_printLen (sizeOf j)).1 j le_rfl
    omega
  have hmain := (parse_print_all ((printJson j).length + 1)).1 j [] hfuel
    (by intro h hh; simp at hh)
  rw [List.append_nil] at hmain
  rw [hmain]
  simp [skipWs]

theorem stringifyJson_obj_ne_empty (fs : JFields) :
    stringifyJson (.obj fs) ≠ "" := by
  cases fs with
  | nil => intro h; exact absurd (congrArg String.data h) (by simp [stringifyJson, printJson])
  | cons k v t =>
    intro h
    exact absurd (congrArg String.data h) (by simp [stringifyJson, printJson])

/-- C9: for every argument map of an XML tool call (any insertion-ordered
list of string parameters), coercing each value with `coerceArg` in order,
JSON-encoding the coerced map into the `arguments` string exactly as
`sendMessage` does, and decoding that string the way the tool executor path
does (`JSON.parse` with `{}` fallback) yields an object equal to the
coerced argument map. -/
theorem c9_coerce_encode_decode_roundtrip (args : List (String × String)) :
    decodeArgs (stringifyJson (.obj (coerceFields args))) = .obj (coerceFields args) := by
  unfold decodeArgs
  rw [if_neg (stringifyJson_obj_ne_empty _), jsonParse_stringify]

/-! ### C1: cancellation mid-stream -/

/-- C1: the claim fails on the code.  The user cancels after the first
chunk, which carried a complete structured tool-call delta; `sendMessage`
never re-checks the abort signal after `streamChat` resolves, so the
accumulated call is dispatched, a tool result is persisted after the lone
Assistant message, and the loop continues with another round instead of
exiting.  (The finalization part of the claim does hold: the Assistant is
finalized and persisted with the parsed buffered content `"Par"`.) -/
theorem c1_cancel_still_executes_toolcalls :
    (roundInputOfStream c1Chunks (some 1)).rawBuffer = "Par" ∧
    (roundInputOfStream c1Chunks (some 1)).streamErrorMsg = "" ∧
    ((processRound (roundInputOfStream c1Chunks (some 1)) 0
      (fun _ _ => "tool result")).persistAppends.map fun p => (p.role, p.content)) =
      [("assistant", "Par"), ("tool", "tool result")] ∧
    ((processRound (roundInputOfStream c1Chunks (some 1)) 0
      (fun _ _ => "tool result")).dispatches.map Prod.fst) = ["glob"] ∧
    (processRound (roundInputOfStream c1Chunks (some 1)) 0
      (fun _ _ => "tool result")).continueLoop = true := by
  decide

/-! ### C3: PLAN-mode gating of mutating tools -/

/-- The gate inside `executeTool` as written: with the `mode` argument
passed, a non-read-only, non-bridge name is denied in PLAN mode and the
filesystem is untouched. -/
theorem executeTool_plan_gate (io : String → Json → String) (name : String) (args : Json)
    (fs : Fs) (h1 : ¬ READ_ONLY_TOOLS.contains name) (h2 : ¬ strStarts "mcp__" name) :
    executeTool io name args (some .PLAN) fs =
      (fs, ⟨"Error: Tool \"" ++ name ++
        "\" is not available in PLAN mode. Switch to BUILDER mode (Tab) to use it."⟩) := by
  unfold executeTool
  rw [if_pos ⟨rfl, by simpa using h1, by simpa using h2⟩]

/-- C3: the loop calls `executeTool(tc.function.name, args)` without the
mode argument, so in a PLAN-mode session `write_file` executes and writes
the file; only a call that does pass `mode` produces the denial. -/
theorem c3_plan_gate_skipped_in_loop :
    (executeTool (fun _ _ => "") "write_file" c3Args none []).1 = [("x", "y")] ∧
    (executeTool (fun _ _ => "") "write_file" c3Args none []).2.result =
      "File written successfully: x" ∧
    (executeTool (fun _ _ => "") "write_file" c3Args (some .PLAN) []).1 = [] ∧
    (executeTool (fun _ _ => "") "write_file" c3Args (some .PLAN) []).2.result =
      "Error: Tool \"write_file\" is not available in PLAN mode. Switch to BUILDER mode (Tab) to use it." := by
  decide

/-! ### C4: the PLAN-mode schema list -/

/-- C4 counterexample: with one external-bridge tool classified ReadOnly,
the schema list the code resolves in PLAN mode differs from the list the
claim describes (the bridge tool is missing). -/
theorem c4_counterexample :
    schemasForMode .PLAN [⟨"mcp__srv__lookup"⟩] ≠
      planSchemasClaimed [⟨"mcp__srv__lookup"⟩] (fun _ => true) := by
  decide

/-- C4 amended: in PLAN mode the resolved schema list is exactly the five
ReadOnly built-ins — it contains no Mutating name, and no external-bridge
tool at all; in BUILDER mode it is all built-ins followed by all bridge
definitions. -/
theorem c4_amended (mcpDefs : List ToolDef) :
    schemasForMode .PLAN mcpDefs =
      [⟨"read_file"⟩, ⟨"glob"⟩, ⟨"grep"⟩, ⟨"list_directory"⟩, ⟨"web_search"⟩] ∧
    (schemasForMode .PLAN mcpDefs).all (fun d => READ_ONLY_TOOLS.contains d.name) = true ∧
    schemasForMode .BUILDER mcpDefs = builtinDefs ++ mcpDefs := by
  exact ⟨rfl, rfl, rfl⟩

/-! ### C2: request history versus persisted history -/

/-- C2 counterexample: a round whose raw buffer holds a `<think>` block.
The store receives the parsed content `"Hello"`, but the next request's
assistant entry carries the raw buffer, so the persisted Assistant content
is not what is sent back to the server. -/
theorem c2_counterexample :
    ((processRound c2RI 0 (fun _ _ => "r")).persistAppends.head?.map
      PersistCall.content) = some "Hello" ∧
    ((processRound c2RI 0 (fun _ _ => "r")).histAppends.head?.map
      HistMsg.content) = some "<think>hi</think>Hello" := by
  decide

/-- C2 amended: roles of the appended messages agree between the store and
the next request, tool-result messages agree verbatim, but the assistant
entry sent to the server carries the raw stream content while the store
receives the decorated parse; the two coincide when there is no stream
error and the raw buffer parses to itself and is nonempty. -/
theorem c2_amended (ri : RoundInput) (ts : Nat) (runner : String → Json → String) :
    ((processRound ri ts runner).histAppends.map HistMsg.role =
      (processRound ri ts runner).persistAppends.map PersistCall.role) ∧
    (((processRound ri ts runner).histAppends.map HistMsg.content).tail =
      ((processRound ri ts runner).persistAppends.map PersistCall.content).tail) ∧
    ((processRound ri ts runner).histAppends.head?.map HistMsg.content =
      some ri.result.content) ∧
    (ri.streamErrorMsg = "" →
      (parseModelOutput ri.rawBuffer).content = ri.result.content →
      ri.result.content ≠ "" →
      (processRound ri ts runner).persistAppends.head?.map PersistCall.content =
        some ri.result.content) := by
  rcases eq_or_ne ri.streamErrorMsg "" with herr | herr
  · refine ⟨?_, ?_, ?_, ?_⟩
    · simp [processRound, herr, List.map_map]
    · simp [processRound, herr, List.map_map]
    · simp [processRound, herr]
    · intro _ hparse hne
      simp [processRound, herr, hparse, hne]
  · refine ⟨?_, ?_, ?_, fun h => absurd h herr⟩
    · simp [processRound, herr]
    · simp [processRound, herr]
    · simp [processRound, herr]

/-! ### C6: terminal events of the streaming client -/

set_option maxHeartbeats 1000000 in
theorem processChunk_chunkCount (st : StreamState) (ch : StreamChunk) :
    (processChunk st ch).1.chunkCount = st.chunkCount + 1 := by
  obtain ⟨u, err, chs⟩ := ch
  cases err <;> cases u <;> cases chs <;>
    simp only [processChunk] <;> (repeat' split) <;> rfl

set_option maxHeartbeats 1000000 in
theorem processChunk_done_count (st : StreamState) (ch : StreamChunk) :
    (processChunk st ch).2.1.countP (fun e => isDoneEvent e) = 0 := by
  obtain ⟨u, err, chs⟩ := ch
  cases err <;> cases u <;> cases chs <;>
    simp only [processChunk] <;> (repeat' split) <;>
    simp_all [List.countP_append, List.countP_map, isDoneEvent, Function.comp,
      List.countP_cons, List.countP_nil]

set_option maxHeartbeats 1000000 in
theorem processChunk_error_count (st : StreamState) (ch : StreamChunk) :
    (processChunk st ch).2.1.countP (fun e => isErrorEvent e) =
      (if (processChunk st ch).2.2 then 1 else 0) := by
  obtain ⟨u, err, chs⟩ := ch
  cases err <;> cases u <;> cases chs <;>
    simp only [processChunk] <;> (repeat' split) <;>
    simp_all [List.countP_append, List.countP_map, isErrorEvent, Function.comp,
      List.countP_cons, List.countP_nil]

theorem runChunks_chunkCount_le (l : List StreamChunk) (st : StreamState) :
    st.chunkCount ≤ (runChunks st l).1.chunkCount := by
  induction l generalizing st with
  | nil => exact Nat.le_refl _
  | cons ch rest ih =>
    simp only [runChunks]
    split
    · rw [processChunk_chunkCount]
      exact Nat.le_succ _
    · exact Nat.le_trans
        (by rw [processChunk_chunkCount]; exact Nat.le_succ _) (ih _)

theorem runChunks_done_count (l : List StreamChunk) (st : StreamState) :
    (runChunks st l).2.countP (fun e => isDoneEvent e) = 0 := by
  induction l generalizing st with
  | nil => rfl
  | cons ch rest ih =>
    simp only [runChunks]
    split
    · exact processChunk_done_count st ch
    · simp [List.countP_append, processChunk_done_count, ih]

theorem runChunks_error_count (l : List StreamChunk) (st : StreamState) :
    (runChunks st l).2.countP (fun e => isErrorEvent e) ≤ 1 := by
  induction l generalizing st with
  | nil => exact Nat.zero_le 1
  | cons ch rest ih =>
    simp only [runChunks]
    split
    · rw [processChunk_error_count]
      split <;> simp
    · rename_i hstop
      rw [List.countP_append, processChunk_error_count, if_neg hstop]
      simpa using ih (processChunk st ch).1

theorem streamChat_events_eq (chunks : List StreamChunk) (abortAfter : Option Nat) :
    (streamChat chunks abortAfter).2 =
      (runChunks initialStreamState (effChunks chunks abortAfter)).2 ++
        emptyErrEvents (effChunks chunks abortAfter) ++
        [.doneEvent (runChunks initialStreamState (effChunks chunks abortAfter)).1.usage] := rfl

theorem emptyErrEvents_done_count (eff : List StreamChunk) :
    (emptyErrEvents eff).countP (fun e => isDoneEvent e) = 0 := by
  unfold emptyErrEvents
  split <;> simp [isDoneEvent]

theorem emptyErrEvents_of_cons (c : StreamChunk) (cs : List StreamChunk) :
    emptyErrEvents (c :: cs) = [] := by
  unfold emptyErrEvents
  rw [if_neg]
  intro h
  have h1 : (0:Nat) < (runChunks initialStreamState (c :: cs)).1.chunkCount := by
    simp only [runChunks]
    split
    · rw [processChunk_chunkCount]; omega
    · exact Nat.lt_of_lt_of_le
        (by rw [processChunk_chunkCount]; omega)
        (runChunks_chunkCount_le _ _)
  omega

theorem runChunks_error_count_eq (l : List StreamChunk) (st : StreamState) :
    (runChunks st l).2.countP (fun e => isErrorEvent e) =
      (if runStopped st l then 1 else 0) := by
  induction l generalizing st with
  | nil => rfl
  | cons ch rest ih =>
    simp only [runChunks, runStopped]
    split
    · rename_i h
      rw [processChunk_error_count, if_pos h]
      simp
    · rename_i h
      rw [List.countP_append, processChunk_error_count, if_neg h, ih]
      simp

theorem runStopped_chunkCount (l : List StreamChunk) (st : StreamState)
    (h : runStopped st l = true) : st.chunkCount < (runChunks st l).1.chunkCount := by
  induction l generalizing st with
  | nil => simp [runStopped] at h
  | cons ch rest ih =>
    simp only [runStopped] at h
    simp only [runChunks]
    by_cases hs : (processChunk st ch).2.2 = true
    · rw [if_pos hs, processChunk_chunkCount]
      omega
    · rw [if_neg hs] at h ⊢
      have h1 := ih (processChunk st ch).1 h
      have h2 : (processChunk st ch).1.chunkCount = st.chunkCount + 1 :=
        processChunk_chunkCount st ch
      show st.chunkCount < (runChunks (processChunk st ch).1 rest).1.chunkCount
      omega

theorem exnEvents_done_count (c : List StreamChunk) (a : Option Nat) (e : Option String) :
    (exnEvents c a e).countP (fun x => isDoneEvent x) = 0 := by
  cases e with
  | none => rfl
  | some m =>
    show ((if runStopped initialStreamState (effChunks c a) || abortedEarly c a then
      [] else [StreamEvent.errorEvent m]).countP fun x => isDoneEvent x) = 0
    split <;> simp [isDoneEvent]

theorem exnEvents_error_le (c : List StreamChunk) (a : Option Nat) (e : Option String) :
    (exnEvents c a e).countP (fun x => isErrorEvent x) ≤ 1 := by
  cases e with
  | none => simp [exnEvents]
  | some m =>
    show ((if runStopped initialStreamState (effChunks c a) || abortedEarly c a then
      [] else [StreamEvent.errorEvent m]).countP fun x => isErrorEvent x) ≤ 1
    split <;> simp [isErrorEvent]

theorem exnEvents_of_stopped (c : List StreamChunk) (a : Option Nat) (e : Option String)
    (h : runStopped initialStreamState (effChunks c a) = true) :
    exnEvents c a e = [] := by
  cases e with
  | none => rfl
  | some m =>
    show (if runStopped initialStreamState (effChunks c a) || abortedEarly c a then
      [] else [StreamEvent.errorEvent m]) = []
    rw [if_pos (by simp [h])]

theorem emptyErrEvents_error_le (eff : List StreamChunk) :
    (emptyErrEvents eff).countP (fun x => isErrorEvent x) ≤ 1 := by
  unfold emptyErrEvents
  split <;> simp [isErrorEvent]

theorem emptyErrEvents_of_stopped (eff : List StreamChunk)
    (h : runStopped initialStreamState eff = true) :
    emptyErrEvents eff = [] := by
  unfold emptyErrEvents
  rw [if_neg]
  intro hc
  have := runStopped_chunkCount eff initialStreamState h
  omega

/-- C6 amended: every stream's event list ends in exactly one `Done`
event, emitted last and unconditionally, and before it there is never a
`Done`; the terminal callback is not unique: an error stream also gets
`Done`, and a transport exception reaching the `catch` with no chunk
delivered produces two `Error` callbacks (the caught exception, then the
empty-response check) before `Done` — so at most two `Error` events, and at
most one when no exception is thrown. -/
theorem c6_amended (chunks : List StreamChunk) (abortAfter : Option Nat)
    (exn : Option String) :
    ∃ pre usage, (streamChatX chunks abortAfter exn).2 = pre ++ [.doneEvent usage] ∧
      pre.countP (fun e => isDoneEvent e) = 0 ∧
      pre.countP (fun e => isErrorEvent e) ≤ 2 ∧
      (exn = none → pre.countP (fun e => isErrorEvent e) ≤ 1) := by
  refine ⟨(runChunks initialStreamState (effChunks chunks abortAfter)).2 ++
      exnEvents chunks abortAfter exn ++ emptyErrEvents (effChunks chunks abortAfter),
    (runChunks initialStreamState (effChunks chunks abortAfter)).1.usage,
    rfl, ?_, ?_, ?_⟩
  · rw [List.countP_append, List.countP_append, runChunks_done_count,
      exnEvents_done_count, emptyErrEvents_done_count]
  · rw [List.countP_append, List.countP_append, runChunks_error_count_eq]
    by_cases hstop : runStopped initialStreamState (effChunks chunks abortAfter) = true
    · rw [if_pos hstop, exnEvents_of_stopped _ _ _ hstop,
        emptyErrEvents_of_stopped _ hstop]
      simp
    · rw [if_neg hstop]
      have h1 := exnEvents_error_le chunks abortAfter exn
      have h2 := emptyErrEvents_error_le (effChunks chunks abortAfter)
      omega
  · rintro rfl
    rw [List.countP_append, List.countP_append, runChunks_error_count_eq]
    have h2 := emptyErrEvents_error_le (effChunks chunks abortAfter)
    by_cases hstop : runStopped initialStreamState (effChunks chunks abortAfter) = true
    · rw [if_pos hstop, emptyErrEvents_of_stopped _ hstop]
      simp [exnEvents]
    · rw [if_neg hstop]
      simp only [exnEvents, List.countP_nil]
      omega

/-- C6 counterexample: a stream whose single chunk carries an API-level
error emits the `Error` callback, breaks the loop, and then — since
`onDone` sits after the loop unconditionally — also emits `Done`: two
terminal events for one stream.  And a transport exception before any
chunk (`exn` with an empty stream) emits two `Error` callbacks — the
caught exception and the empty-response check — before `Done`. -/
theorem c6_counterexample :
    ((streamChatX c6Chunks none none).2.countP (fun e => isErrorEvent e) = 1) ∧
    ((streamChatX c6Chunks none none).2.countP (fun e => isDoneEvent e) = 1) ∧
    ((streamChatX c6Chunks none none).2.countP (fun e => isTerminalEvent e) = 2) ∧
    ((streamChatX [] none (some "Connection error")).2 =
      [.errorEvent "Connection error",
        .errorEvent "No response received from API (0 chunks)",
        .doneEvent ⟨0, 0, 0⟩]) := by
  decide

/-! ### C7: structured tool calls win over XML-recovered ones -/

theorem xmlToAccumulated_getElem (ts : Nat) (calls : List ParsedToolCall) (i : Nat) :
    (xmlToAccumulated ts calls)[i]? = calls[i]?.map fun tc =>
      ⟨"xml_tc_" ++ toString ts ++ "_" ++ toString i, tc.name,
        stringifyJson (.obj (coerceFields tc.args))⟩ := by
  simp only [xmlToAccumulated, List.getElem?_map, List.getElem?_enum]
  cases calls[i]? <;> rfl

theorem processRound_finalToolCalls (ri : RoundInput) (ts : Nat)
    (runner : String → Json → String) :
    (processRound ri ts runner).finalToolCalls =
      (if ri.result.toolCalls.length = 0 ∧
          (parseModelOutput ri.rawBuffer).toolCalls.length > 0 then
        xmlToAccumulated ts (parseModelOutput ri.rawBuffer).toolCalls
      else ri.result.toolCalls) := by
  simp only [processRound]
  split <;> rfl

/-- C7: whenever the streaming client's structured tool-call map is
non-empty it is taken verbatim as the final tool-call list; only when it is
empty are the parser's XML calls used, and the XML call at 0-based position
`i` gets the synthesized id `xml_tc_<ts>_<i>` (with its coerced arguments
JSON-encoded). -/
theorem c7_structured_wins (ri : RoundInput) (ts : Nat)
    (runner : String → Json → String) :
    (ri.result.toolCalls ≠ [] →
      (processRound ri ts runner).finalToolCalls = ri.result.toolCalls) ∧
    (ri.result.toolCalls = [] →
      ∀ i : Nat, (processRound ri ts runner).finalToolCalls[i]? =
        ((parseModelOutput ri.rawBuffer).toolCalls[i]?.map fun tc =>
          (⟨"xml_tc_" ++ toString ts ++ "_" ++ toString i, tc.name,
            stringifyJson (.obj (coerceFields tc.args))⟩ : AccumulatedToolCall))) := by
  constructor
  · intro h
    rw [processRound_finalToolCalls, if_neg]
    intro hc
    exact h (List.length_eq_zero.mp hc.1)
  · intro h i
    rw [processRound_finalToolCalls]
    cases hp : (parseModelOutput ri.rawBuffer).toolCalls with
    | nil => simp [h, hp]
    | cons c cs =>
      rw [if_pos ⟨by simp [h], by simp [hp]⟩, xmlToAccumulated_getElem]

/-- C7 witness: a round with no structured calls and one embedded XML
`glob` invocation yields a single final call with the synthesized id and
the coerced, JSON-encoded arguments. -/
theorem c7_structured_wins_witness :
    (processRound c7RI 1730000000000 (fun _ _ => "r")).finalToolCalls[0]? =
      some ⟨"xml_tc_1730000000000_0", "glob",
        "\x7b\"pattern\":\"*.ts\",\"limit\":5\x7d"⟩ := by
  rw [(c7_structured_wins c7RI 1730000000000 (fun _ _ => "r")).2 rfl 0]
  decide

/-! ### C8: edit_file uniqueness -/

theorem ne_of_headq (s t : String) (h : s.data.head? ≠ t.data.head?) : s ≠ t :=
  fun he => h (congrArg (fun x : String => x.data.head?) he)

/-- C8: with the occurrence count `k` computed as the code computes it
(`content.split(old_str).length - 1`, i.e. non-overlapping left-to-right
count for a nonempty `old_str`), `edit_file` succeeds exactly when `k = 1`
(then it writes the single replacement), reports `not found` when `k = 0`,
reports the count when `k > 1`, and in both failure cases the filesystem is
unchanged. -/
theorem c8_edit_unique (fs : Fs) (path old new content : String) (k : Nat)
    (hread : fsRead fs path = some content) (hold : old ≠ "")
    (hk : countOccAux old.data content.data.length content.data = k) :
    (k = 1 → EditFile.execute fs path old new =
      (fsWrite fs path (String.mk (jsReplaceFirst content.data old.data new.data)),
        "File edited successfully: " ++ path)) ∧
    ((EditFile.execute fs path old new).2 = "File edited successfully: " ++ path →
      k = 1) ∧
    (k = 0 → EditFile.execute fs path old new =
      (fs, "Error: old_str not found in " ++ path)) ∧
    (1 < k → EditFile.execute fs path old new =
      (fs, "Error: old_str found " ++ toString (k : Int) ++ " times in " ++ path ++
        ". It must be unique. Add more context to make it unique.")) := by
  have hocc : editOccurrences old content = (k : Int) := by
    rw [editOccurrences, if_neg hold, hk]
  have hexe : EditFile.execute fs path old new =
      (if (k : Int) = 0 then (fs, "Error: old_str not found in " ++ path)
       else if (k : Int) > 1 then
        (fs, "Error: old_str found " ++ toString (k : Int) ++ " times in " ++ path ++
          ". It must be unique. Add more context to make it unique.")
       else (fsWrite fs path (String.mk (jsReplaceFirst content.data old.data new.data)),
        "File edited successfully: " ++ path)) := by
    simp only [EditFile.execute, hread, hocc]
  refine ⟨?_, ?_, ?_, ?_⟩
  · rintro rfl
    rw [hexe]
    norm_num
  · intro hs
    by_contra hne
    rcases Nat.lt_or_ge k 1 with h1 | h1
    · have hk0 : k = 0 := by omega
      subst hk0
      rw [hexe] at hs
      norm_num at hs
      exact absurd hs (ne_of_headq _ _ (by simp [String.data_append]))
    · have h2 : 1 < k := by omega
      rw [hexe, if_neg (by omega), if_pos (by exact_mod_cast h2)] at hs
      exact absurd hs (ne_of_headq _ _ (by simp [String.data_append]))
  · rintro rfl
    rw [hexe]
    norm_num
  · intro h2
    rw [hexe, if_neg (by omega), if_pos (by exact_mod_cast h2)]

/-- C8 witness: the spec's scenario — `x` holds `"ab\nab\n"`, the edit
targets `old_str = "ab"` — fails naming the count 2 and leaves the file
unchanged. -/
theorem c8_edit_unique_witness :
    EditFile.execute [("x", "ab\nab\n")] "x" "ab" "cd" =
      ([("x", "ab\nab\n")],
        "Error: old_str found 2 times in x. It must be unique. Add more context to make it unique.") := by
  rw [(c8_edit_unique [("x", "ab\nab\n")] "x" "ab" "cd" "ab\nab\n" 2
    (by decide) (by decide) (by decide)).2.2.2 (by decide)]
  decide

/-! ### C10: the dot-file filter acts only at the top level -/

theorem listChildren_nil (md cur : Nat) : listChildren md cur .nil = [] := by
  rw [listChildren.eq_def]

theorem listChildren_cons_file (md cur : Nat) (n : String) (sz : Nat) (t : EntList) :
    listChildren md cur (.cons (.file n sz) t) =
      (if strStarts "." n ∧ cur = 0 then []
       else [indentOf cur ++ n ++ " (" ++ formatSize sz ++ ")"]) ++
      listChildren md cur t := by
  rw [listChildren.eq_def]
  rfl

theorem listChildren_cons_dir (md cur : Nat) (n : String) (cs t : EntList) :
    listChildren md cur (.cons (.dir n cs) t) =
      (if strStarts "." n ∧ cur = 0 then []
       else (indentOf cur ++ n ++ "/") ::
         (if cur < md then
           (if cur + 1 > md then [] else listChildren md (cur + 1) cs)
         else [])) ++
      listChildren md cur t := by
  rw [listChildren.eq_def]
  rfl

theorem listChildrenAll_cons_file (md cur : Nat) (n : String) (sz : Nat) (t : EntList) :
    listChildrenAll md cur (.cons (.file n sz) t) =
      [indentOf cur ++ n ++ " (" ++ formatSize sz ++ ")"] ++
      listChildrenAll md cur t := by
  rw [listChildrenAll.eq_def]

theorem listChildrenAll_cons_dir (md cur : Nat) (n : String) (cs t : EntList) :
    listChildrenAll md cur (.cons (.dir n cs) t) =
      ((indentOf cur ++ n ++ "/") ::
        (if cur < md then
          (if cur + 1 > md then [] else listChildrenAll md (cur + 1) cs)
        else [])) ++
      listChildrenAll md cur t := by
  rw [listChildrenAll.eq_def]

theorem listTopSpec_cons_file (md : Nat) (n : String) (sz : Nat) (t : EntList) :
    listTopSpec md (.cons (.file n sz) t) =
      (if strStarts "." n then []
       else [indentOf 0 ++ n ++ " (" ++ formatSize sz ++ ")"]) ++
      listTopSpec md t := by
  rw [listTopSpec.eq_def]
  rfl

theorem listTopSpec_cons_dir (md : Nat) (n : String) (cs t : EntList) :
    listTopSpec md (.cons (.dir n cs) t) =
      (if strStarts "." n then []
       else (indentOf 0 ++ n ++ "/") ::
         (if 0 < md then
           (if 1 > md then [] else listChildrenAll md 1 cs)
         else [])) ++
      listTopSpec md t := by
  rw [listTopSpec.eq_def]
  rfl

theorem listChildren_eq_all_aux (n : Nat) :
    ∀ (md cur : Nat) (es : EntList), sizeOf es ≤ n → 1 ≤ cur →
      listChildren md cur es = listChildrenAll md cur es := by
  induction n using Nat.strong_induction_on with
  | _ n ih =>
    intro md cur es hsz hcur
    cases es with
    | nil => rfl
    | cons e t =>
      simp only [EntList.cons.sizeOf_spec] at hsz
      cases e with
      | file nm sz =>
        rw [listChildren_cons_file, listChildrenAll_cons_file,
          if_neg (fun hc => absurd hc.2 (by omega)),
          ih (sizeOf t) (by simp at hsz ⊢; omega) md cur t (Nat.le_refl _) hcur]
      | dir nm cs =>
        rw [listChildren_cons_dir, listChildrenAll_cons_dir,
          if_neg (fun hc => absurd hc.2 (by omega)),
          ih (sizeOf t) (by simp [Ent.dir.sizeOf_spec] at hsz ⊢; omega) md cur t
            (Nat.le_refl _) hcur,
          ih (sizeOf cs) (by simp [Ent.dir.sizeOf_spec] at hsz ⊢; omega) md (cur + 1) cs
            (Nat.le_refl _) (by omega)]

theorem listChildren_eq_all (md cur : Nat) (es : EntList) (hcur : 1 ≤ cur) :
    listChildren md cur es = listChildrenAll md cur es :=
  listChildren_eq_all_aux (sizeOf es) md cur es (Nat.le_refl _) hcur

theorem listRecursive_eq_top_aux (n : Nat) :
    ∀ (md : Nat) (es : EntList), sizeOf es ≤ n →
      listChildren md 0 es = listTopSpec md es := by
  induction n using Nat.strong_induction_on with
  | _ n ih =>
    intro md es hsz
    cases es with
    | nil => rfl
    | cons e t =>
      simp only [EntList.cons.sizeOf_spec] at hsz
      have htail : listChildren md 0 t = listTopSpec md t :=
        ih (sizeOf t) (by omega) md t (Nat.le_refl _)
      cases e with
      | file nm sz =>
        rw [listChildren_cons_file, listTopSpec_cons_file, htail]
        simp only [and_true, eq_self_iff_true]
      | dir nm cs =>
        rw [listChildren_cons_dir, listTopSpec_cons_dir, htail,
          listChildren_eq_all md 1 cs (Nat.le_refl _)]
        simp only [and_true, eq_self_iff_true]

theorem listRecursive_eq_top (es : EntList) (md : Nat) :
    listRecursive es md = listTopSpec md es := by
  unfold listRecursive
  rw [if_neg (by omega)]
  exact listRecursive_eq_top_aux (sizeOf es) md es (Nat.le_refl _)

theorem listRecursive_c10Ents :
    listRecursive c10Ents 2 = ["sub/", "  .hidden (2.0KB)", "  a.txt (3B)"] := by
  show (if 0 > 2 then [] else listChildren 2 0 c10Ents) = _
  rw [if_neg (by omega)]
  show listChildren 2 0 (.cons (.file ".secret" 5)
    (.cons (.dir "sub" (.cons (.file ".hidden" 2048) (.cons (.file "a.txt" 3) .nil))) .nil)) = _
  rw [listChildren_cons_file, listChildren_cons_dir, listChildren_cons_file,
    listChildren_cons_file, listChildren_nil, listChildren_nil]
  decide

/-- C10: `list_directory` filters dot-named entries only at the top level:
for every tree and depth limit the produced listing equals the claim-side
listing that drops dot-named direct children and never filters below, and
on a tree with a top-level `.secret` and a nested `sub/.hidden` at
`max_depth = 2` the output keeps `.hidden` (size-formatted, indented) while
`.secret` never appears. -/
theorem c10_dot_skip_top_only :
    (∀ (es : EntList) (md : Nat), listRecursive es md = listTopSpec md es) ∧
    listRecursive c10Ents 2 = ["sub/", "  .hidden (2.0KB)", "  a.txt (3B)"] :=
  ⟨listRecursive_eq_top, listRecursive_c10Ents⟩

/-! ### C5: parser idempotence and tag-freeness of content -/

theorem firstOcc_nil (pat : List Char) :
    firstOcc pat [] = if pat = [] then some 0 else none := rfl

theorem firstOcc_cons (pat : List Char) (c : Char) (t : List Char) :
    firstOcc pat (c :: t) =
      (if pat.isPrefixOf (c :: t) then some 0 else (firstOcc pat t).map (· + 1)) := rfl

theorem isPrefixOf_getElem (pat s : List Char) (h : pat.isPrefixOf s = true)
    (j : Nat) (hj : j < pat.length) : s[j]? = pat[j]? := by
  obtain ⟨r, rfl⟩ := List.isPrefixOf_iff_prefix.mp h
  exact List.getElem?_append_left hj

theorem NoStartIn_tail (pat : List Char) (c : Char) (t : List Char)
    (h : NoStartIn pat (c :: t)) : NoStartIn pat t := by
  intro i hi
  obtain ⟨j, hj, hjt, hne⟩ := h (i + 1) (by simpa using Nat.succ_lt_succ hi)
  refine ⟨j, hj, by simpa using Nat.lt_of_succ_lt_succ (by simpa [Nat.add_right_comm] using hjt), ?_⟩
  have : (c :: t)[i + 1 + j]? = t[i + j]? := by
    simp [List.getElem?_cons_succ, Nat.add_right_comm]
  rwa [this] at hne

theorem NoStartIn_append (pat a b : List Char)
    (ha : NoStartIn pat a) (hb : NoStartIn pat b) : NoStartIn pat (a ++ b) := by
  intro i hi
  rw [List.length_append] at hi
  by_cases hia : i < a.length
  · obtain ⟨j, hj, hjt, hne⟩ := ha i hia
    refine ⟨j, hj, by rw [List.length_append]; omega, ?_⟩
    rwa [List.getElem?_append_left hjt]
  · obtain ⟨j, hj, hjt, hne⟩ := hb (i - a.length) (by omega)
    refine ⟨j, hj, by rw [List.length_append]; omega, ?_⟩
    have : (a ++ b)[i + j]? = b[i - a.length + j]? := by
      rw [List.getElem?_append_right (by omega)]
      congr 1
      omega
    rwa [this]

theorem NoStartIn_of_clean (pat t : List Char) (hp : pat[0]? = some '<')
    (h : ∀ c ∈ t, c ≠ '<') : NoStartIn pat t := by
  intro i hi
  refine ⟨0, ?_, by omega, ?_⟩
  · cases pat with
    | nil => simp at hp
    | cons c p => simp
  · rw [hp, Nat.add_zero]
    intro he
    have hmem : t[i]? = some '<' := he.symm
    have := List.getElem?_mem hmem
    exact h _ this rfl

theorem not_isPrefixOf_of_NoStartIn (pat tag g : List Char)
    (h : NoStartIn pat tag) (hlen : 0 < tag.length) :
    pat.isPrefixOf (tag ++ g) = false := by
  by_contra hc
  have hpre : pat.isPrefixOf (tag ++ g) = true := by
    cases hp : pat.isPrefixOf (tag ++ g)
    · exact absurd hp hc
    · rfl
  obtain ⟨j, hj, hjt, hne⟩ := h 0 hlen
  rw [Nat.zero_add] at hjt hne
  have h1 : (tag ++ g)[j]? = pat[j]? := isPrefixOf_getElem _ _ hpre j hj
  rw [List.getElem?_append_left hjt] at h1
  exact hne h1.symm

theorem firstOcc_append_shift (pat tag g : List Char) (h : NoStartIn pat tag) :
    firstOcc pat (tag ++ g) = (firstOcc pat g).map (· + tag.length) := by
  induction tag with
  | nil =>
    rw [List.nil_append]
    cases hg : firstOcc pat g <;> simp [hg]
  | cons c t ih =>
    have hfalse : pat.isPrefixOf ((c :: t) ++ g) = false :=
      not_isPrefixOf_of_NoStartIn pat (c :: t) g h (by simp)
    rw [List.cons_append] at hfalse
    rw [List.cons_append, firstOcc_cons, if_neg (by simp [hfalse]),
      ih (NoStartIn_tail pat c t h)]
    cases hg : firstOcc pat g <;> simp [hg]
    omega

theorem firstOcc_self_append (pat g : List Char) (h : pat ≠ []) :
    firstOcc pat (pat ++ g) = some 0 := by
  cases pat with
  | nil => exact absurd rfl h
  | cons c t =>
    rw [List.cons_append, firstOcc_cons, if_pos]
    rw [← List.cons_append]
    exact List.isPrefixOf_iff_prefix.mpr ⟨g, rfl⟩

theorem firstOcc_none_of_NoStartIn (pat t : List Char) (h : NoStartIn pat t)
    (hp : pat ≠ []) : firstOcc pat t = none := by
  have := firstOcc_append_shift pat t [] h
  rw [List.append_nil] at this
  rw [this, firstOcc_nil, if_neg hp]
  rfl

theorem glue_nil : glue [] = [] := rfl

theorem glue_cons (s : Seg) (rest : List Seg) :
    glue (s :: rest) = glueSeg s ++ glue rest := rfl

theorem glue_append (a b : List Seg) : glue (a ++ b) = glue a ++ glue b := by
  induction a with
  | nil => rfl
  | cons s t ih => rw [List.cons_append, glue_cons, glue_cons, ih, List.append_assoc]

theorem NoStartIn_nil (pat : List Char) : NoStartIn pat [] := by
  intro i hi
  simp at hi

theorem NoStartIn_glue (pat : List Char) (l : List Seg)
    (h : ∀ s ∈ l, NoStartIn pat (glueSeg s)) : NoStartIn pat (glue l) := by
  induction l with
  | nil => exact NoStartIn_nil pat
  | cons s t ih =>
    rw [glue_cons]
    exact NoStartIn_append pat _ _ (h s (by simp)) (ih fun x hx => h x (by simp [hx]))

theorem exists_first_target (P : Seg → Bool) (segs : List Seg) (h : segs.any P = true) :
    ∃ a t b, segs = a ++ t :: b ∧ P t = true ∧ ∀ s ∈ a, P s = false := by
  induction segs with
  | nil => simp at h
  | cons e rest ih =>
    by_cases he : P e = true
    · exact ⟨[], e, rest, rfl, he, by simp⟩
    · have he' : P e = false := by
        cases hpe : P e
        · rfl
        · exact absurd hpe he
      have h' : rest.any P = true := by
        rw [List.any_cons, he'] at h
        simpa using h
      obtain ⟨a, t, b, hsegs, ht, ha⟩ := ih h'
      refine ⟨e :: a, t, b, by rw [hsegs, List.cons_append], ht, ?_⟩
      intro s hs
      rcases List.mem_cons.mp hs with rfl | hs'
      · exact he'
      · exact ha s hs'

theorem extractAux_zero (openT closeT : List Char) (s : List Char) :
    extractAux openT closeT 0 s = ([], s) := rfl

theorem extractAux_succ (openT closeT : List Char) (fuel : Nat) (s : List Char) :
    extractAux openT closeT (fuel + 1) s =
      match splitFirst openT s with
      | none => ([], s)
      | some (pre, rest) =>
        match splitFirst closeT rest with
        | none => ([], s)
        | some (inner, post) =>
          let r := extractAux openT closeT fuel post
          (inner :: r.1, pre ++ r.2) := by
  rw [extractAux]

theorem countP_le_glue_length (P : Seg → Bool) (segs : List Seg)
    (h : ∀ s ∈ segs, P s = true → glueSeg s ≠ []) :
    segs.countP P ≤ (glue segs).length := by
  induction segs with
  | nil => simp [glue_nil]
  | cons s t ih =>
    rw [glue_cons, List.countP_cons, List.length_append]
    have ht := ih fun x hx hp => h x (by simp [hx]) hp
    by_cases hp : P s = true
    · have h1 : 1 ≤ (glueSeg s).length := by
        have := h s (by simp) hp
        cases hgs : glueSeg s
        · exact absurd hgs this
        · simp
      simp [hp]
      omega
    · have hp' : P s = false := by
        cases hps : P s
        · rfl
        · exact absurd hps hp
      simp [hp']
      omega

theorem splitFirst_skip_match (pat pre X : List Char)
    (hno : NoStartIn pat pre) (hp : pat ≠ []) :
    splitFirst pat (pre ++ (pat ++ X)) = some (pre, X) := by
  unfold splitFirst
  rw [firstOcc_append_shift _ _ _ hno, firstOcc_self_append _ _ hp]
  show some ((pre ++ (pat ++ X)).take (0 + pre.length),
    (pre ++ (pat ++ X)).drop (0 + pre.length + pat.length)) = some (pre, X)
  rw [Nat.zero_add]
  have h1 : (pre ++ (pat ++ X)).take pre.length = pre := List.take_left pre _
  have h2 : (pre ++ (pat ++ X)).drop (pre.length + pat.length) = X := by
    rw [← List.append_assoc, ← List.length_append]
    exact List.drop_left _ _
  rw [h1, h2]

theorem splitFirst_none_of_NoStartIn (pat s : List Char)
    (h : NoStartIn pat s) (hp : pat ≠ []) : splitFirst pat s = none := by
  unfold splitFirst
  rw [firstOcc_none_of_NoStartIn _ _ h hp]
  rfl

theorem extractAux_glue (openT closeT : List Char) (P : Seg → Bool)
    (hopen : openT ≠ []) (hclose : closeT ≠ []) (fuel : Nat) :
    ∀ (segs : List Seg), segs.countP P ≤ fuel →
      (∀ s ∈ segs, P s = true →
        glueSeg s = openT ++ (segPayload s ++ closeT) ∧
          NoStartIn closeT (segPayload s)) →
      (∀ s ∈ segs, P s = false → NoStartIn openT (glueSeg s)) →
      extractAux openT closeT fuel (glue segs) =
        ((segs.filter P).map segPayload, glue (segs.filter (fun s => !P s))) := by
  induction fuel with
  | zero =>
    intro segs hfuel htar hoth
    have hz : ∀ s ∈ segs, ¬P s = true := by
      have := Nat.le_zero.mp hfuel
      rw [List.countP_eq_zero] at this
      exact this
    have h1 : segs.filter P = [] := List.filter_eq_nil_iff.mpr hz
    have h2 : segs.filter (fun s => !P s) = segs :=
      List.filter_eq_self.mpr (by intro a ha; simp [hz a ha])
    rw [extractAux_zero, h1, h2]
    rfl
  | succ fuel ih =>
    intro segs hfuel htar hoth
    by_cases hany : segs.any P = true
    · obtain ⟨a, t, b, rfl, hPt, hPa⟩ := exists_first_target P segs hany
      obtain ⟨hgs, hcln⟩ := htar t (by simp) hPt
      have hnoa : NoStartIn openT (glue a) :=
        NoStartIn_glue _ _ fun s hs => hoth s (by simp [hs]) (hPa s hs)
      have hglue : glue (a ++ t :: b) =
          glue a ++ (openT ++ (segPayload t ++ (closeT ++ glue b))) := by
        rw [glue_append, glue_cons, hgs, List.append_assoc, List.append_assoc]
      have hcount : b.countP P ≤ fuel := by
        have hca : a.countP P = 0 :=
          List.countP_eq_zero.mpr (by intro s hs; simp [hPa s hs])
        simp [List.countP_append, List.countP_cons, hca, hPt] at hfuel
        omega
      have hrec := ih b hcount
        (fun s hs => htar s (by simp [hs]) )
        (fun s hs => hoth s (by simp [hs]))
      rw [hglue, extractAux_succ, splitFirst_skip_match _ _ _ hnoa hopen]
      show (match splitFirst closeT (segPayload t ++ (closeT ++ glue b)) with
        | none => ([], glue a ++ (openT ++ (segPayload t ++ (closeT ++ glue b))))
        | some (inner, post) =>
          let r := extractAux openT closeT fuel post
          (inner :: r.1, glue a ++ r.2)) = _
      rw [splitFirst_skip_match _ _ _ hcln hclose]
      show (segPayload t :: (extractAux openT closeT fuel (glue b)).1,
        glue a ++ (extractAux openT closeT fuel (glue b)).2) = _
      rw [hrec]
      have hf1 : (a ++ t :: b).filter P = t :: b.filter P := by
        rw [List.filter_append, List.filter_eq_nil_iff.mpr
          (by intro s hs; simp [hPa s hs]), List.filter_cons_of_pos hPt,
          List.nil_append]
      have hf2 : (a ++ t :: b).filter (fun s => !P s) =
          a ++ b.filter (fun s => !P s) := by
        rw [List.filter_append,
          List.filter_eq_self.mpr (by intro s hs; simp [hPa s hs]),
          List.filter_cons_of_neg (by simp [hPt])]
      rw [hf1, hf2, glue_append]
      rfl
    · have hall : ∀ s ∈ segs, P s = false := by
        intro s hs
        cases hps : P s
        · rfl
        · exact absurd (List.any_eq_true.mpr ⟨s, hs, hps⟩) hany
      have hno : NoStartIn openT (glue segs) :=
        NoStartIn_glue _ _ fun s hs => hoth s hs (hall s hs)
      have h1 : segs.filter P = [] :=
        List.filter_eq_nil_iff.mpr (by intro s hs; simp [hall s hs])
      have h2 : segs.filter (fun s => !P s) = segs :=
        List.filter_eq_self.mpr (by intro s hs; simp [hall s hs])
      rw [extractAux_succ, splitFirst_none_of_NoStartIn _ _ hno hopen, h1, h2]
      rfl

theorem dropWhile_head_false (p : Char → Bool) (l : List Char) :
    ∀ c, (l.dropWhile p).head? = some c → p c = false := by
  induction l with
  | nil => intro c hc; simp at hc
  | cons a t ih =>
    intro c hc
    rw [List.dropWhile_cons] at hc
    by_cases hpa : p a = true
    · rw [if_pos hpa] at hc
      exact ih c hc
    · rw [if_neg hpa] at hc
      simp at hc
      rw [← hc]
      cases hq : p a
      · rfl
      · exact absurd hq hpa

theorem dropWhile_eq_self_of_head (p : Char → Bool) (l : List Char)
    (h : ∀ c, l.head? = some c → p c = false) : l.dropWhile p = l := by
  cases l with
  | nil => rfl
  | cons a t =>
    rw [List.dropWhile_cons, if_neg]
    rw [h a rfl]
    simp

theorem head?_of_front (l₁ l₂ : List Char) (h : l₁ <+: l₂) (hne : l₁ ≠ []) :
    l₂.head? = l₁.head? := by
  obtain ⟨r, rfl⟩ := h
  cases l₁ with
  | nil => exact absurd rfl hne
  | cons a t => rfl

theorem trimChars_idem (s : List Char) : trimChars (trimChars s) = trimChars s := by
  unfold trimChars
  set u := s.dropWhile isWsChar with hu
  set w := u.reverse.dropWhile isWsChar with hw
  have hwpre : w.reverse <+: u := by
    rw [← List.reverse_reverse u]
    exact List.reverse_prefix.mpr (List.dropWhile_suffix isWsChar)
  have hstep1 : w.reverse.dropWhile isWsChar = w.reverse := by
    apply dropWhile_eq_self_of_head
    intro c hc
    have hne : w.reverse ≠ [] := by
      intro h0
      rw [h0] at hc
      simp at hc
    have : u.head? = some c := by rw [head?_of_front _ _ hwpre hne, hc]
    exact dropWhile_head_false isWsChar s c this
  have hstep2 : w.dropWhile isWsChar = w := by
    apply dropWhile_eq_self_of_head
    intro c hc
    exact dropWhile_head_false isWsChar u.reverse c hc
  rw [hstep1, List.reverse_reverse, hstep2]

theorem mem_trimChars (c : Char) (s : List Char) (h : c ∈ trimChars s) : c ∈ s := by
  unfold trimChars at h
  rw [List.mem_reverse] at h
  have h1 := (List.dropWhile_sublist isWsChar).subset h
  rw [List.mem_reverse] at h1
  exact (List.dropWhile_sublist isWsChar).subset h1

theorem findTrailingTag_clean (t : List Char) (h : ∀ c ∈ t, c ≠ '<') :
    findTrailingTag t = none := by
  induction t with
  | nil => rfl
  | cons c r ih =>
    rw [findTrailingTag]
    have hc : (c = '<') = False := by
      simp [h c (by simp)]
    simp only [hc]
    rw [ih fun x hx => h x (by simp [hx])]
    simp

theorem occursIn_eq_false_of_clean (pat t : List Char) (hp : pat[0]? = some '<')
    (h : ∀ c ∈ t, c ≠ '<') : occursIn pat t = false := by
  unfold occursIn
  rw [firstOcc_none_of_NoStartIn pat t (NoStartIn_of_clean pat t hp h)
    (by intro h0; rw [h0] at hp; simp at hp)]
  rfl

theorem extractAux_no_open (o cl : List Char) (fuel : Nat) (s : List Char)
    (h : splitFirst o s = none) : extractAux o cl fuel s = ([], s) := by
  cases fuel with
  | zero => rfl
  | succ f => rw [extractAux_succ, h]

theorem data_stringMk (l : List Char) : (String.mk l).data = l := rfl

theorem noStart_tags :
    NoStartIn thinkOpenTag toolOpenTag ∧ NoStartIn thinkOpenTag toolCloseTag ∧
    NoStartIn thinkOpenTag thinkCloseTag ∧
    NoStartIn thinkCloseTag toolOpenTag ∧ NoStartIn thinkCloseTag toolCloseTag ∧
    NoStartIn thinkCloseTag thinkOpenTag ∧
    NoStartIn toolOpenTag thinkOpenTag ∧ NoStartIn toolOpenTag thinkCloseTag ∧
    NoStartIn toolOpenTag toolCloseTag ∧
    NoStartIn toolCloseTag thinkOpenTag ∧ NoStartIn toolCloseTag thinkCloseTag ∧
    NoStartIn toolCloseTag toolOpenTag := by
  decide

theorem okSeg_payload (s : Seg) (hok : okSeg s) : ∀ c ∈ segPayload s, c ≠ '<' := hok

theorem NoStartIn_glueSeg_notThink (pat : List Char) (hp : pat[0]? = some '<')
    (hoo : NoStartIn pat toolOpenTag) (hoc : NoStartIn pat toolCloseTag)
    (s : Seg) (hok : okSeg s) (hs : isThinkSeg s = false) :
    NoStartIn pat (glueSeg s) := by
  cases s with
  | plain t => exact NoStartIn_of_clean pat t hp hok
  | think t => simp [isThinkSeg] at hs
  | tool t =>
    exact NoStartIn_append _ _ _
      (NoStartIn_append _ _ _ hoo (NoStartIn_of_clean pat t hp hok)) hoc

theorem NoStartIn_glueSeg_notTool (pat : List Char) (hp : pat[0]? = some '<')
    (hto : NoStartIn pat thinkOpenTag) (htc : NoStartIn pat thinkCloseTag)
    (s : Seg) (hok : okSeg s) (hs : isToolSeg s = false) :
    NoStartIn pat (glueSeg s) := by
  cases s with
  | plain t => exact NoStartIn_of_clean pat t hp hok
  | tool t => simp [isToolSeg] at hs
  | think t =>
    exact NoStartIn_append _ _ _
      (NoStartIn_append _ _ _ hto (NoStartIn_of_clean pat t hp hok)) htc

theorem unclosedThink_false (segs : List Seg) (hok : ∀ s ∈ segs, okSeg s) :
    (occursIn thinkOpenTag (glue segs) && !occursIn thinkCloseTag (glue segs)) = false := by
  by_cases hany : segs.any isThinkSeg = true
  · obtain ⟨a, t, b, rfl, hPt, hPa⟩ := exists_first_target _ _ hany
    cases t with
    | plain tp => simp [isThinkSeg] at hPt
    | tool tp => simp [isThinkSeg] at hPt
    | think tp =>
      have hocc : occursIn thinkCloseTag (glue (a ++ .think tp :: b)) = true := by
        unfold occursIn
        have hglue : glue (a ++ .think tp :: b) =
            (glue a ++ (thinkOpenTag ++ tp)) ++ (thinkCloseTag ++ glue b) := by
          rw [glue_append, glue_cons]
          show glue a ++ (thinkOpenTag ++ (tp ++ thinkCloseTag) ++ glue b) = _
          simp [List.append_assoc]
        rw [hglue, firstOcc_append_shift, firstOcc_self_append]
        · simp
        · decide
        · refine NoStartIn_append _ _ _ (NoStartIn_glue _ _ fun s hs => ?_) ?_
          · exact NoStartIn_glueSeg_notThink _ (by decide)
              noStart_tags.2.2.2.1 noStart_tags.2.2.2.2.1
              s (hok s (by simp [hs])) (hPa s hs)
          · exact NoStartIn_append _ _ _ noStart_tags.2.2.2.2.2.1
              (NoStartIn_of_clean _ _ (by decide)
                (okSeg_payload (Seg.think tp) (hok (Seg.think tp) (by simp))))
      rw [hocc]
      simp
  · have hno : occursIn thinkOpenTag (glue segs) = false := by
      unfold occursIn
      rw [firstOcc_none_of_NoStartIn _ _ (NoStartIn_glue _ _ fun s hs => ?_) (by decide)]
      · rfl
      · refine NoStartIn_glueSeg_notThink _ (by decide)
          noStart_tags.1 noStart_tags.2.1 s (hok s hs) ?_
        cases hps : isThinkSeg s
        · rfl
        · exact absurd (List.any_eq_true.mpr ⟨s, hs, hps⟩) hany
    rw [hno]
    simp

theorem unclosedTool_false (segs : List Seg) (hok : ∀ s ∈ segs, okSeg s) :
    (occursIn toolOpenTag (glue segs) && !occursIn toolCloseTag (glue segs)) = false := by
  by_cases hany : segs.any isToolSeg = true
  · obtain ⟨a, t, b, rfl, hPt, hPa⟩ := exists_first_target _ _ hany
    cases t with
    | plain tp => simp [isToolSeg] at hPt
    | think tp => simp [isToolSeg] at hPt
    | tool tp =>
      have hocc : occursIn toolCloseTag (glue (a ++ .tool tp :: b)) = true := by
        unfold occursIn
        have hglue : glue (a ++ .tool tp :: b) =
            (glue a ++ (toolOpenTag ++ tp)) ++ (toolCloseTag ++ glue b) := by
          rw [glue_append, glue_cons]
          show glue a ++ (toolOpenTag ++ (tp ++ toolCloseTag) ++ glue b) = _
          simp [List.append_assoc]
        rw [hglue, firstOcc_append_shift, firstOcc_self_append]
        · simp
        · decide
        · refine NoStartIn_append _ _ _ (NoStartIn_glue _ _ fun s hs => ?_) ?_
          · exact NoStartIn_glueSeg_notTool _ (by decide)
              noStart_tags.2.2.2.2.2.2.2.2.2.1 noStart_tags.2.2.2.2.2.2.2.2.2.2.1
              s (hok s (by simp [hs])) (hPa s hs)
          · exact NoStartIn_append _ _ _ noStart_tags.2.2.2.2.2.2.2.2.2.2.2
              (NoStartIn_of_clean _ _ (by decide)
                (okSeg_payload (Seg.tool tp) (hok (Seg.tool tp) (by simp))))
      rw [hocc]
      simp
  · have hno : occursIn toolOpenTag (glue segs) = false := by
      unfold occursIn
      rw [firstOcc_none_of_NoStartIn _ _ (NoStartIn_glue _ _ fun s hs => ?_) (by decide)]
      · rfl
      · refine NoStartIn_glueSeg_notTool _ (by decide)
          noStart_tags.2.2.2.2.2.2.1 noStart_tags.2.2.2.2.2.2.2.1 s (hok s hs) ?_
        cases hps : isToolSeg s
        · rfl
        · exact absurd (List.any_eq_true.mpr ⟨s, hs, hps⟩) hany
    rw [hno]
    simp

theorem ext_think (segs : List Seg) (hok : ∀ s ∈ segs, okSeg s) :
    extractBlocks thinkOpenTag thinkCloseTag (glue segs) =
      ((segs.filter isThinkSeg).map segPayload,
        glue (segs.filter fun s => !isThinkSeg s)) := by
  unfold extractBlocks
  refine extractAux_glue thinkOpenTag thinkCloseTag isThinkSeg (by decide) (by decide)
    (glue segs).length segs ?_ ?_ ?_
  · refine countP_le_glue_length _ _ fun s hs hp => ?_
    cases s with
    | plain t => simp [isThinkSeg] at hp
    | tool t => simp [isThinkSeg] at hp
    | think t =>
      show (thinkOpenTag ++ t) ++ thinkCloseTag ≠ []
      simp [thinkOpenTag, thinkCloseTag]
  · intro s hs hp
    cases s with
    | plain t => simp [isThinkSeg] at hp
    | tool t => simp [isThinkSeg] at hp
    | think t =>
      refine ⟨List.append_assoc _ _ _, ?_⟩
      exact NoStartIn_of_clean _ _ (by decide) (okSeg_payload _ (hok _ hs))
  · intro s hs hp
    exact NoStartIn_glueSeg_notThink _ (by decide)
      noStart_tags.1 noStart_tags.2.1 s (hok s hs) hp

theorem ext_tool (segs : List Seg) (hok : ∀ s ∈ segs, okSeg s) :
    extractBlocks toolOpenTag toolCloseTag (glue segs) =
      ((segs.filter isToolSeg).map segPayload,
        glue (segs.filter fun s => !isToolSeg s)) := by
  unfold extractBlocks
  refine extractAux_glue toolOpenTag toolCloseTag isToolSeg (by decide) (by decide)
    (glue segs).length segs ?_ ?_ ?_
  · refine countP_le_glue_length _ _ fun s hs hp => ?_
    cases s with
    | plain t => simp [isToolSeg] at hp
    | think t => simp [isToolSeg] at hp
    | tool t =>
      show (toolOpenTag ++ t) ++ toolCloseTag ≠ []
      simp [toolOpenTag, toolCloseTag]
  · intro s hs hp
    cases s with
    | plain t => simp [isToolSeg] at hp
    | think t => simp [isToolSeg] at hp
    | tool t =>
      refine ⟨List.append_assoc _ _ _, ?_⟩
      exact NoStartIn_of_clean _ _ (by decide) (okSeg_payload _ (hok _ hs))
  · intro s hs hp
    exact NoStartIn_glueSeg_notTool _ (by decide)
      noStart_tags.2.2.2.2.2.2.1 noStart_tags.2.2.2.2.2.2.2.1 s (hok s hs) hp

theorem glue_clean (l : List Seg)
    (h : ∀ s ∈ l, okSeg s ∧ isThinkSeg s = false ∧ isToolSeg s = false) :
    ∀ c ∈ glue l, c ≠ '<' := by
  induction l with
  | nil => intro c hc; simp [glue_nil] at hc
  | cons s t ih =>
    intro c hc
    rw [glue_cons, List.mem_append] at hc
    rcases hc with hc | hc
    · obtain ⟨hok, hnt, hno⟩ := h s (by simp)
      cases s with
      | plain tp => exact okSeg_payload _ hok c hc
      | think tp => simp [isThinkSeg] at hnt
      | tool tp => simp [isToolSeg] at hno
    · exact ih (fun x hx => h x (by simp [hx])) c hc

theorem parse_glue_content (segs : List Seg) (hok : ∀ s ∈ segs, okSeg s) :
    (parseModelOutput (String.mk (glue segs))).content =
      String.mk (trimChars (glue ((segs.filter fun s => !isThinkSeg s).filter
        fun s => !isToolSeg s))) := by
  have h1 := unclosedThink_false segs hok
  have h2 := unclosedTool_false segs hok
  have h3 := ext_think segs hok
  have h4 := ext_tool (segs.filter fun s => !isThinkSeg s)
    (fun s hs => hok s (List.mem_of_mem_filter hs))
  have h5 : ∀ c ∈ glue ((segs.filter fun s => !isThinkSeg s).filter
      fun s => !isToolSeg s), c ≠ '<' := by
    refine glue_clean _ fun s hs => ?_
    have hs2 := List.of_mem_filter hs
    have hs1 := List.mem_of_mem_filter hs
    have hs0 := List.of_mem_filter hs1
    refine ⟨hok s (List.mem_of_mem_filter hs1), ?_, ?_⟩
    · simpa using hs0
    · simpa using hs2
  have h6 := findTrailingTag_clean _ h5
  simp only [parseModelOutput, data_stringMk, h1, h2, h3, h4, h6,
    Bool.false_eq_true, if_false]

theorem parse_clean_content (c : List Char) (h : ∀ x ∈ c, x ≠ '<') :
    (parseModelOutput (String.mk c)).content = String.mk (trimChars c) := by
  have hto : occursIn thinkOpenTag c = false :=
    occursIn_eq_false_of_clean _ _ (by decide) h
  have hoo : occursIn toolOpenTag c = false :=
    occursIn_eq_false_of_clean _ _ (by decide) h
  have hb1 : extractBlocks thinkOpenTag thinkCloseTag c = ([], c) := by
    unfold extractBlocks
    exact extractAux_no_open _ _ _ _ (splitFirst_none_of_NoStartIn _ _
      (NoStartIn_of_clean _ _ (by decide) h) (by decide))
  have hb2 : extractBlocks toolOpenTag toolCloseTag c = ([], c) := by
    unfold extractBlocks
    exact extractAux_no_open _ _ _ _ (splitFirst_none_of_NoStartIn _ _
      (NoStartIn_of_clean _ _ (by decide) h) (by decide))
  have h6 := findTrailingTag_clean c h
  simp only [parseModelOutput, data_stringMk, hto, hoo, hb1, hb2, h6,
    Bool.false_and, Bool.false_eq_true, if_false]

theorem glue_plains_clean (segs : List Seg) (hok : ∀ s ∈ segs, okSeg s) :
    ∀ c ∈ glue ((segs.filter fun s => !isThinkSeg s).filter
      fun s => !isToolSeg s), c ≠ '<' := by
  refine glue_clean _ fun s hs => ?_
  have hs2 := List.of_mem_filter hs
  have hs1 := List.mem_of_mem_filter hs
  have hs0 := List.of_mem_filter hs1
  refine ⟨hok s (List.mem_of_mem_filter hs1), ?_, ?_⟩
  · simpa using hs0
  · simpa using hs2

/-- C5 amended: on every buffer glued from complete, non-interleaved
`<think>` / `<minimax:tool_call>` blocks and plain text whose payloads are
free of `<`, the parser's content contains neither `<think>` nor
`<minimax:tool_call>`, and re-parsing the returned content returns it
unchanged. -/
theorem c5_amended (segs : List Seg) (hok : ∀ s ∈ segs, okSeg s) :
    occursIn thinkOpenTag (parseModelOutput (String.mk (glue segs))).content.data = false ∧
    occursIn toolOpenTag (parseModelOutput (String.mk (glue segs))).content.data = false ∧
    (parseModelOutput (parseModelOutput (String.mk (glue segs))).content).content =
      (parseModelOutput (String.mk (glue segs))).content := by
  have hmain := parse_glue_content segs hok
  have htrim : ∀ x ∈ trimChars (glue ((segs.filter fun s => !isThinkSeg s).filter
      fun s => !isToolSeg s)), x ≠ '<' :=
    fun x hx => glue_plains_clean segs hok x (mem_trimChars _ _ hx)
  refine ⟨?_, ?_, ?_⟩
  · rw [hmain, data_stringMk]
    exact occursIn_eq_false_of_clean _ _ (by decide) htrim
  · rw [hmain, data_stringMk]
    exact occursIn_eq_false_of_clean _ _ (by decide) htrim
  · rw [hmain, parse_clean_content _ htrim, trimChars_idem]

/-- C5 counterexample: on `"<think>a</think><think>b"` the complete think
block is removed but the unclosed-think branch is skipped (a `</think>`
exists somewhere in the buffer), so the returned content is `"<think>b"` —
it contains `<think>`, and re-parsing it yields `""` ≠ `"<think>b"`. -/
theorem c5_counterexample :
    occursIn thinkOpenTag (parseModelOutput "<think>a</think><think>b").content.data = true ∧
    (parseModelOutput (parseModelOutput "<think>a</think><think>b").content).content ≠
      (parseModelOutput "<think>a</think><think>b").content := by
  decide

/-- C5 amended, witness: a concrete well-formed buffer
`"Hello <think>hi</think> world"`. -/
theorem c5_amended_witness :
    occursIn thinkOpenTag (parseModelOutput (String.mk (glue
      [.plain "Hello ".data, .think "hi".data, .plain " world".data]))).content.data = false ∧
    occursIn toolOpenTag (parseModelOutput (String.mk (glue
      [.plain "Hello ".data, .think "hi".data, .plain " world".data]))).content.data = false ∧
    (parseModelOutput (parseModelOutput (String.mk (glue
      [.plain "Hello ".data, .think "hi".data, .plain " world".data]))).content).content =
      (parseModelOutput (String.mk (glue
        [.plain "Hello ".data, .think "hi".data, .plain " world".data]))).content :=
  c5_amended
    [.plain "Hello ".data, .think "hi".data, .plain " world".data] (by decide)

/-- C2 amended, witness: a markup-free round with content `"Hi"` persists
and resends the same assistant content. -/
theorem c2_amended_witness :
    (processRound ⟨⟨"Hi", [], [], ⟨0, 0, 0⟩, "stop"⟩, "Hi", ""⟩ 0
      (fun _ _ => "r")).persistAppends.head?.map PersistCall.content = some "Hi" :=
  (c2_amended ⟨⟨"Hi", [], [], ⟨0, 0, 0⟩, "stop"⟩, "Hi", ""⟩ 0 (fun _ _ => "r")).2.2.2
    rfl (by decide) (by decide)

end MC
